import Mathlib

/-!
Verification of the chunkah repository (a rechunker that repacks a root
filesystem into OCI layers).  Rust sources are shallowly embedded as Lean
definitions:

* machine integers (`u64`, `usize`) are modelled as `Nat` (the quantities
  involved are sizes and counts far below `2^64`, and no wrapping arithmetic
  occurs on the verified paths);
* `f64` arithmetic is modelled exactly: by `ℚ` in the packing module (only
  `+`, `*`, `-` and comparisons occur there) and by `ℝ` in the stability
  model (which uses `exp`);
* `Vec`/slices become `List`, `HashMap`/`IndexMap`/`IndexSet` become
  association lists or index lists with the operations the source performs;
* `Utf8Path` values (always absolute in the verified code) become their
  component lists (`List String`), the `/`-joined rendering being injective
  on slash-free components;
* fallible Rust functions returning `anyhow::Result` become `Except String`.

Definitions keep the source names.  The `BinaryHeap` of merge candidates is
modelled as a list whose pop operation removes a minimum-loss element (the
Rust heap is a min-heap on `loss` via the reversed comparator; tie order
among equal losses is unspecified there and irrelevant to the proved
properties).  The loop in `calculate_packing` is driven by an explicit fuel
argument which strictly bounds the number of iterations; the fuel supplied
by `calculate_packing` is proved sufficient (each iteration removes one heap
element, and merges add fewer elements than the square-decrease of the
active count covers).
-/

unseal Rat.mul Rat.add Rat.sub Rat.inv Rat.ofScientific

namespace Chunkah

/-! ## packing.rs -/

/-- Input item for packing (src/packing.rs, `PackItem`): total size in bytes
and the probability the component does not change between updates. -/
structure PackItem where
  size : Nat
  stability : ℚ
deriving DecidableEq, Repr

/-- Output group from packing (src/packing.rs, `PackGroup`): indices into
the original input slice, total size, and combined stability. -/
structure PackGroup where
  indices : List Nat
  size : Nat
  stability : ℚ
deriving DecidableEq, Repr

/-- Expected value of a group (src/packing.rs, `PackGroup::expected_value`):
`size as f64 * stability`. -/
def PackGroup.expected_value (g : PackGroup) : ℚ :=
  (g.size : ℚ) * g.stability

/-- A candidate merge operation stored in the heap
(src/packing.rs, `MergeCandidate`). -/
structure MergeCandidate where
  loss : ℚ
  group_a_id : Nat
  group_b_id : Nat
deriving DecidableEq, Repr

/-- Loss of expected value incurred by merging two groups
(src/packing.rs, `calculate_merge_loss`). -/
def calculate_merge_loss (a b : PackGroup) : ℚ :=
  let ev_separate := a.expected_value + b.expected_value
  let combined_size : ℚ := ((a.size + b.size : Nat) : ℚ)
  let combined_prob := a.stability * b.stability
  let ev_merged := combined_size * combined_prob
  ev_separate - ev_merged

/-- Pop a minimum-loss candidate from the heap model: returns the popped
element and the remaining list.  Models `BinaryHeap::pop` under the reversed
comparator of `MergeCandidate`. -/
def popMin : List MergeCandidate → Option (MergeCandidate × List MergeCandidate)
  | [] => none
  | c :: rest =>
    match popMin rest with
    | none => some (c, [])
    | some (m, rest') =>
      if c.loss ≤ m.loss then some (c, rest) else some (m, c :: rest')

/-- Candidates between a freshly merged group and every other still-active
group, in index order (src/packing.rs, the `for (other_id, other_group_opt)`
loop after a merge).  `i` is the index of the head of `groups` in the full
vector. -/
def newCandidates (newG : PackGroup) (new_id : Nat) :
    Nat → List (Option PackGroup) → List MergeCandidate
  | _, [] => []
  | i, og :: rest =>
    (if i = new_id then []
     else
       match og with
       | some g => [⟨calculate_merge_loss newG g, new_id, i⟩]
       | none => []) ++ newCandidates newG new_id (i + 1) rest

/-- Initial merge candidates for all unordered pairs of groups
(src/packing.rs, the double `for i / for j in (i+1)..n` loop). -/
def initialCandidates (groups : List (Option PackGroup)) : List MergeCandidate :=
  (List.range groups.length).flatMap fun i =>
    (List.range groups.length).filterMap fun j =>
      if i < j then
        match groups.getD i none, groups.getD j none with
        | some a, some b => some ⟨calculate_merge_loss a b, i, j⟩
        | _, _ => none
      else none

/-- Main merge loop of `calculate_packing` (src/packing.rs, the
`while active_count > max_groups` loop).  State: the `Vec<Option<PackGroup>>`
of groups (merged slots are `none`, merged results are appended), the active
count, and the candidate heap.  The fuel argument strictly bounds the number
of loop iterations; `calculate_packing` supplies a provably sufficient
amount. -/
def packLoop (max_groups : Nat) :
    Nat → List (Option PackGroup) → Nat → List MergeCandidate → List (Option PackGroup)
  | 0, groups, _, _ => groups
  | fuel + 1, groups, active_count, heap =>
    if active_count ≤ max_groups then groups
    else
      match popMin heap with
      | none => groups
      | some (merge_op, rest) =>
        match groups.getD merge_op.group_a_id none, groups.getD merge_op.group_b_id none with
        | some g_a, some g_b =>
          let groups1 := (groups.set merge_op.group_a_id none).set merge_op.group_b_id none
          let new_id := groups1.length
          let newG : PackGroup :=
            ⟨g_a.indices ++ g_b.indices, g_a.size + g_b.size, g_a.stability * g_b.stability⟩
          let groups2 := groups1 ++ [some newG]
          packLoop max_groups fuel groups2 (active_count - 1)
            (rest ++ newCandidates newG new_id 0 groups2)
        | _, _ => packLoop max_groups fuel groups active_count rest

/-- Stable descending sort by stability (src/packing.rs,
`sort_by_stability_desc`); Rust `sort_by` is a stable sort, here realised by
the stable `List.insertionSort`. -/
def sort_by_stability_desc (items : List PackGroup) : List PackGroup :=
  items.insertionSort fun a b => b.stability ≤ a.stability

/-- Initial groups: a separate group for each component
(src/packing.rs, the `items.iter().enumerate().map(...)` constructions). -/
def initialGroups (items : List PackItem) : List PackGroup :=
  items.enum.map fun p => ⟨[p.1], p.2.size, p.2.stability⟩

/-- Fuel supplied to `packLoop`: one unit per possible heap element over the
whole run (proved sufficient below). -/
def packFuel (n : Nat) : Nat :=
  n * n * 2 + 1

/-- Packing algorithm (src/packing.rs, `calculate_packing`): greedily merge
the two groups of smallest merge loss until at most `max_groups` groups
remain; result sorted by stability descending. -/
def calculate_packing (items : List PackItem) (max_groups : Nat) : List PackGroup :=
  if items.isEmpty ∨ max_groups = 0 then []
  else
    let n := items.length
    if n ≤ max_groups then
      sort_by_stability_desc (initialGroups items)
    else
      let groups : List (Option PackGroup) := (initialGroups items).map some
      let heap := initialCandidates groups
      let final := packLoop max_groups (packFuel n) groups n heap
      sort_by_stability_desc (final.filterMap id)

/-! ## utils.rs: the stability model

The three constants live in the `components` module, whose source file is not
part of the sources at hand; their values are modelled from the spec
(section 4.6): `LOOKBACK_DAYS = 365`, `PERIOD_DAYS = 7`, `SECS_PER_DAY =
86400`.  As the code only ever wraps the result in `Ok`, the `Result`
envelope is dropped. -/

/-- Modelled from the spec: seconds per day constant from src/components
(file absent from the sources); spec fixes it to 86400. -/
def SECS_PER_DAY : Nat := 86400

/-- Modelled from the spec: lookback period in days from src/components
(file absent from the sources); spec fixes it to 365. -/
def STABILITY_LOOKBACK_DAYS : Nat := 365

/-- Modelled from the spec: period in days from src/components (file absent
from the sources); spec fixes it to 7 (an `f64` in the code). -/
def STABILITY_PERIOD_DAYS : ℝ := 7

/-- Stability from changelog timestamps and build time (src/utils.rs,
`calculate_stability`).  `u64` subtraction is saturating, hence `Nat`
subtraction models it exactly; `f64` arithmetic is modelled over `ℝ`. -/
noncomputable def calculate_stability (changelog_times : List Nat) (buildtime now : Nat) : ℝ :=
  let lookback_start := now - STABILITY_LOOKBACK_DAYS * SECS_PER_DAY
  let relevant_times := if changelog_times.isEmpty then [buildtime] else changelog_times
  let relevant_times := relevant_times.filter fun t => decide (lookback_start ≤ t)
  if relevant_times.isEmpty then 0.99
  else
    let oldest := relevant_times.min?.getD 0
    let span_days : ℝ := ((now - oldest : Nat) : ℝ) / (SECS_PER_DAY : ℝ)
    if span_days < 1 then 0
    else
      let num_changes : ℝ := relevant_times.length
      let lambda := num_changes / span_days
      Real.exp (-lambda * STABILITY_PERIOD_DAYS)

/-- Modelled from the spec: the reference stability algorithm exactly as
the spec states it (section 4.6, steps 1-6), for comparison against the
code-derived `calculate_stability`. -/
noncomputable def spec_stability (changelog_times : List Nat) (buildtime now : Nat) : ℝ :=
  let series := if changelog_times = [] then [buildtime] else changelog_times
  let filtered := series.filter fun t => decide (now - 365 * 86400 ≤ t)
  if filtered = [] then 0.99
  else
    let oldest := filtered.min?.getD 0
    let span_days : ℝ := ((now - oldest : Nat) : ℝ) / 86400
    if span_days < 1 then 0
    else Real.exp (-((filtered.length : ℝ) / span_days) * 7)

/-! ## components: shared path and file-type model

Absolute UTF-8 paths are modelled by their component lists (the leading `/`
is implicit); path components of real filesystems contain no `/`, making the
rendering `p ↦ "/" ++ intercalate "/" p` injective.  `FileType` is the enum
from src/components (file absent from the sources; variants Directory /
File / Symlink are fixed by their uses in src/scan.rs, src/utils.rs and
src/components/rpm.rs and by the spec data model). -/

/-- An absolute path, as its list of components. -/
abbrev RPath := List String

/-- Modelled from the spec: file type enum of src/components (file absent
from the sources); spec: file type is Directory, RegularFile or Symlink. -/
inductive FileType
  | Directory
  | File
  | Symlink
deriving DecidableEq, Repr

/-! ## components/rpm.rs -/

/-- Format mask of the `st_mode` bits (`libc::S_IFMT`). -/
def S_IFMT : Nat := 0o170000

/-- Directory `st_mode` file-type bits (`libc::S_IFDIR`). -/
def S_IFDIR : Nat := 0o040000

/-- Regular-file `st_mode` file-type bits (`libc::S_IFREG`). -/
def S_IFREG : Nat := 0o100000

/-- Symlink `st_mode` file-type bits (`libc::S_IFLNK`). -/
def S_IFLNK : Nat := 0o120000

/-- File entry of an RPM package record (`rpm_qa::FileInfo`); only the mode
is consulted by the verified code. -/
structure RpmFileInfo where
  mode : Nat
deriving DecidableEq, Repr

/-- Translation of RPM mode bits to a file type (src/components/rpm.rs,
`file_info_to_file_type`). -/
def file_info_to_file_type (fi : RpmFileInfo) : Option FileType :=
  let file_type := Nat.land fi.mode S_IFMT
  if file_type = S_IFDIR then some FileType.Directory
  else if file_type = S_IFREG then some FileType.File
  else if file_type = S_IFLNK then some FileType.Symlink
  else none

/-- RPM database locations (src/components/rpm.rs, `RPMDB_PATHS`). -/
def RPMDB_PATHS : List (List String) :=
  [["usr", "lib", "sysimage", "rpm"], ["usr", "share", "rpm"], ["var", "lib", "rpm"]]

/-- RPM-based components repo (src/components/rpm.rs, `RpmRepo`); component
ids are indices, the path map is an association list. -/
structure RpmRepo where
  path_to_components : List (RPath × List (Nat × RpmFileInfo))

/-- Claims of the RPM provider for one path (src/components/rpm.rs,
`RpmRepo::claims_for_path`): never claim rpmdb paths; otherwise return the
owning components whose recorded file type matches the requested one. -/
def RpmRepo.claims_for_path (repo : RpmRepo) (path : RPath) (file_type : FileType) : List Nat :=
  if RPMDB_PATHS.any (fun p => p.isPrefixOf path) then []
  else
    match repo.path_to_components.lookup path with
    | some entries =>
      (entries.filter fun e => decide (file_info_to_file_type e.2 = some file_type)).map Prod.fst
    | none => []

/-- Concrete RPM repo for the spec scenario: `/usr/bin/sh` is recorded as a
symlink (mode `0o120777`) owned by component 0. -/
def shRepo : RpmRepo :=
  ⟨[(["usr", "bin", "sh"], [(0, ⟨0o120777⟩)])]⟩

/-! ## components/bigfiles.rs -/

/-- Per-path file metadata consulted by the big-files provider
(the `FileInfo` fields used in src/components/bigfiles.rs). -/
structure BFileInfo where
  file_type : FileType
  size : Nat
  nlink : Nat
  ino : Nat
deriving DecidableEq, Repr

/-- Minimum file size in bytes to be considered a big file
(src/components/bigfiles.rs, `MIN_SIZE`). -/
def MIN_SIZE : Nat := 1024 * 1024

/-- Append a path to the inode bucket of `ino` (model of
`HashMap::entry(..).or_default().push(..)`). -/
def tblPush (tbl : List (Nat × List RPath)) (ino : Nat) (p : RPath) : List (Nat × List RPath) :=
  match tbl with
  | [] => [(ino, [p])]
  | (k, ps) :: rest =>
    if k = ino then (k, ps ++ [p]) :: rest else (k, ps) :: tblPush rest ino p

/-- Remove an inode bucket, returning its contents (model of
`HashMap::remove`). -/
def tblRemove (tbl : List (Nat × List RPath)) (ino : Nat) :
    Option (List RPath) × List (Nat × List RPath) :=
  match tbl with
  | [] => (none, [])
  | (k, ps) :: rest =>
    if k = ino then (some ps, rest)
    else
      let r := tblRemove rest ino
      (r.1, (k, ps) :: r.2)

/-- Inode table of qualifying hardlinked files (src/components/bigfiles.rs,
the first loop of `BigfilesRepo::load`). -/
def buildInodeTable (files : List (RPath × BFileInfo)) : List (Nat × List RPath) :=
  files.foldl
    (fun tbl pf =>
      if pf.2.file_type = FileType.File ∧ 1 < pf.2.nlink ∧ MIN_SIZE ≤ pf.2.size then
        tblPush tbl pf.2.ino pf.1
      else tbl)
    []

/-- Component names are modelled as the component lists of the strings the
source builds: the basename becomes the singleton list, the full path minus
the leading slash becomes the path itself. -/
def insertFull (comps : List (List String)) (name : List String) : Nat × List (List String) :=
  if name ∈ comps then (comps.indexOf name, comps)
  else (comps.length, comps ++ [name])

/-- State of the main loop of `BigfilesRepo::load`: the components created
so far, the path map, and the remaining inode table. -/
abbrev BigfilesState :=
  List (List String) × List (RPath × Nat) × List (Nat × List RPath)

/-- One iteration of the main loop of `BigfilesRepo::load`
(src/components/bigfiles.rs): skip non-files, small files and
already-consumed hardlinks; otherwise create a component for the file
(named by its basename, or by its full stripped path when the basename is
taken) and fold its hardlinked paths into the same component. -/
def bigfiles_step (st : BigfilesState) (pf : RPath × BFileInfo) : BigfilesState :=
  if pf.2.file_type ≠ FileType.File ∨ pf.2.size < MIN_SIZE then st
  else if 1 < pf.2.nlink ∧ (st.2.2.lookup pf.2.ino).isNone then st
  else
    let filename := pf.1.getLastD ""
    let component_name := if [filename] ∈ st.1 then pf.1 else [filename]
    let r := insertFull st.1 component_name
    let p2c := st.2.1 ++ [(pf.1, r.1)]
    let rem := tblRemove st.2.2 pf.2.ino
    let p2c2 :=
      match rem.1 with
      | some linked => p2c ++ linked.map fun lp => (lp, r.1)
      | none => p2c
    (r.2, p2c2, rem.2)

/-- Main loop of `BigfilesRepo::load` (src/components/bigfiles.rs), the
`for (path, file_info) in files` loop as a fold over the file map. -/
def bigfiles_load_go (files : List (RPath × BFileInfo)) (st : BigfilesState) : BigfilesState :=
  files.foldl bigfiles_step st

/-- Big-files component repo (src/components/bigfiles.rs, `BigfilesRepo`). -/
structure BigfilesRepo where
  components : List (List String)
  path_to_component : List (RPath × Nat)
  default_mtime_clamp : Nat
deriving DecidableEq, Repr

/-- Load of the big-files repo (src/components/bigfiles.rs,
`BigfilesRepo::load`): `none` when no qualifying file exists. -/
def BigfilesRepo.load (files : List (RPath × BFileInfo)) (default_mtime_clamp : Nat) :
    Option BigfilesRepo :=
  let r := bigfiles_load_go files ([], [], buildInodeTable files)
  if r.1.isEmpty then none else some ⟨r.1, r.2.1, default_mtime_clamp⟩

/-- Wording of claim C6 as a checkable predicate: every qualifying file's
component is named by the file's basename when that basename is unique
across the provider's components (no other qualifying file shares it), and
otherwise by the file's absolute path minus the leading slash. -/
def bigfilesNamingClaim (files : List (RPath × BFileInfo)) (dmc : Nat) : Bool :=
  match BigfilesRepo.load files dmc with
  | none => true
  | some repo =>
    files.all fun pf =>
      !(pf.2.file_type == FileType.File && MIN_SIZE ≤ pf.2.size) ||
        match repo.path_to_component.lookup pf.1 with
        | none => true
        | some idx =>
          repo.components.getD idx [] ==
            if files.all fun q =>
                 q.1 == pf.1 || !(q.2.file_type == FileType.File && MIN_SIZE ≤ q.2.size) ||
                   q.1.getLastD "" != pf.1.getLastD "" then
              [pf.1.getLastD ""]
            else pf.1

/-! ## cmd_build.rs: label mutation -/

/-- Overwrite or add a binding (model of `HashMap::insert`). -/
def mapInsert (m : List (String × String)) (k v : String) : List (String × String) :=
  if m.any (fun e => e.1 == k) then m.map fun e => if e.1 == k then (k, v) else e
  else m ++ [(k, v)]

/-- Drop a binding (model of `HashMap::remove`). -/
def mapRemove (m : List (String × String)) (k : String) : List (String × String) :=
  m.filter fun e => e.1 != k

/-- Split a character list at the first occurrence of `c`. -/
def splitOnceChar (c : Char) : List Char → Option (List Char × List Char)
  | [] => none
  | x :: xs =>
    if x = c then some ([], xs)
    else (splitOnceChar c xs).map fun p => (x :: p.1, p.2)

/-- Split at the first equals sign, code point 61 (model of
`str::split_once`). -/
def splitOnceEq (s : String) : Option (String × String) :=
  (splitOnceChar (Char.ofNat 61) s.data).map fun p => (String.mk p.1, String.mk p.2)

/-- Remove a trailing dash, code point 45, if present (model of
`str::strip_suffix`). -/
def stripDash (s : String) : Option String :=
  if s.data.getLast? = some (Char.ofNat 45) then some (String.mk s.data.dropLast) else none

/-- Key-value pair processing (src/cmd_build.rs, `parse_key_value_pairs`):
`KEY=VALUE` sets, `KEY-` removes, bare `-` clears, anything else errors. -/
def parse_key_value_pairs :
    List String → List (String × String) → Except String (List (String × String))
  | [], map => .ok map
  | pair :: rest, map =>
    match splitOnceEq pair with
    | some kv =>
      if kv.1 = "" then .error ("key cannot be empty: " ++ pair)
      else parse_key_value_pairs rest (mapInsert map kv.1 kv.2)
    | none =>
      match stripDash pair with
      | some k =>
        if k = "" then parse_key_value_pairs rest []
        else parse_key_value_pairs rest (mapRemove map k)
      | none => .error ("label must be in KEY=VALUE or KEY- format: " ++ pair)

/-! ## utils.rs: path canonicalization

The rootfs is modelled by the symlink-target oracle the code consults
(`read_link_contents`), the file map by the file-type oracle (`FileMap`
lookup).  The memoization cache of the source is omitted: it only
accelerates repeated queries.  The recursion of `canonicalize_dir_path` is
driven by the remaining symlink budget `gas = MAX_SYMLINK_DEPTH + 1 - depth`
(the source checks `depth > MAX_SYMLINK_DEPTH` on entry, which is `gas = 0`
here) and walks the path from the root outward, which is the order in which
the parent-first recursion of the source resolves components. -/

/-- Maximum depth for symlink resolution (src/utils.rs,
`MAX_SYMLINK_DEPTH`). -/
def MAX_SYMLINK_DEPTH : Nat := 40

/-- A symlink target: either absolute or relative, with its components. -/
structure SymTarget where
  absolute : Bool
  comps : List String
deriving DecidableEq, Repr

/-- Normalization of `.` and `..` components (src/utils.rs,
`normalize_path`); `..` at the root stays at the root, exactly like
`Utf8PathBuf::pop`. -/
def normalize_path (path : List String) : List String :=
  path.foldl
    (fun result c =>
      if c = ".." then result.dropLast
      else if c = "." then result
      else result ++ [c])
    []

/-- Component-by-component walk of `canonicalize_dir_path`: `acc` is the
canonicalized prefix, the last argument the components still to resolve;
`resolve` is the recursive canonicalization at symlink depth one higher
(the `depth + 1` calls of the source). -/
def canonWalk (rootfs : RPath → Option SymTarget) (files : RPath → Option FileType)
    (resolve : RPath → Except String RPath) : RPath → RPath → Except String RPath
  | acc, [] => .ok acc
  | acc, filename :: rest =>
    let current_path := acc ++ [filename]
    if files current_path = some FileType.Symlink then
      match rootfs current_path with
      | none => .error "reading symlink target"
      | some target =>
        match
          (if target.absolute then resolve target.comps
           else resolve (normalize_path (acc ++ target.comps))) with
        | .error e => .error e
        | .ok canonical => canonWalk rootfs files resolve canonical rest
    else canonWalk rootfs files resolve current_path rest

/-- Recursive canonicalization of a directory path (src/utils.rs,
`canonicalize_dir_path`), out of budget when `gas = 0`: the source recurses
on the parent at the same depth and on symlink targets at `depth + 1`,
which is the root-outward walk of `canonWalk` with one unit of gas consumed
per symlink jump. -/
def canonicalize_dir_path (rootfs : RPath → Option SymTarget) (files : RPath → Option FileType) :
    Nat → RPath → Except String RPath
  | 0, _ => .error "too many levels of symbolic links"
  | gas + 1, path =>
    canonWalk rootfs files (canonicalize_dir_path rootfs files gas) [] path

/-- Canonicalization of the parent of a path, keeping the leaf verbatim
(src/utils.rs, `canonicalize_parent_path`); paths are absolute by
construction, the root maps to itself, and the initial depth 0 of the source
is the full budget here. -/
def canonicalize_parent_path (rootfs : RPath → Option SymTarget)
    (files : RPath → Option FileType) (path : RPath) : Except String RPath :=
  if path = [] then .ok []
  else do
    let canonical_parent ←
      canonicalize_dir_path rootfs files (MAX_SYMLINK_DEPTH + 1) path.dropLast
    .ok (canonical_parent ++ [path.getLastD ""])

/-- Concrete rootfs fixture, after the canonicalization unit test of the
repository: `/lib` points to `usr/lib`, `/foo` to `.././../bar`, `/bar` to
`usr/bar`. -/
def trootfs : RPath → Option SymTarget := fun p =>
  if p = ["lib"] then some ⟨false, ["usr", "lib"]⟩
  else if p = ["foo"] then some ⟨false, ["..", ".", "..", "bar"]⟩
  else if p = ["bar"] then some ⟨false, ["usr", "bar"]⟩
  else none

/-- File types of the concrete rootfs fixture `trootfs`. -/
def tfiles : RPath → Option FileType := fun p =>
  if p = ["lib"] ∨ p = ["foo"] ∨ p = ["bar"] then some FileType.Symlink
  else if p = ["usr"] ∨ p = ["usr", "lib"] ∨ p = ["usr", "lib", "modules"] ∨ p = ["usr", "bar"]
    then some FileType.Directory
  else none

/-! ## components/alpm.rs: metadata file size limit -/

/-- Maximum size of an ALPM metadata file (src/components/alpm.rs,
`ALPM_DBFILE_MAXIMUM_SIZE`, 64 MiB). -/
def ALPM_DBFILE_MAXIMUM_SIZE : Nat := 64 * 1024 * 1024

/-- An ALPM metadata file as the reader sees it: its on-disk size and its
content. -/
structure AlpmDbFile where
  size : Nat
  content : String
deriving DecidableEq, Repr

/-- Size-guarded read and parse of one metadata file (src/components/alpm.rs,
the `read_dbfile` closure of `package_info_from_dir`); the text parser
(`content.parse::<LocalAlpmDbFile>`) is the `parse` parameter. -/
def read_dbfile {α : Type} (parse : String → Except String α) (f : AlpmDbFile) :
    Except String α :=
  if ALPM_DBFILE_MAXIMUM_SIZE < f.size then .error "file is too large"
  else parse f.content

/-- Read of the `desc` and `files` metadata of one package directory
(src/components/alpm.rs, `package_info_from_dir`). -/
def package_info_from_dir {α : Type} (parse : String → Except String α)
    (desc files : AlpmDbFile) : Except String (α × α) := do
  let d ← read_dbfile parse desc
  let f ← read_dbfile parse files
  pure (d, f)

/-! ## Observations on the packing state, used by the packing proofs -/

/-- Indices carried by one group slot: none for a consumed slot. -/
def optIndices : Option PackGroup → List Nat
  | none => []
  | some g => g.indices

/-- All input indices carried by the still-active groups. -/
def activeIndices (groups : List (Option PackGroup)) : List Nat :=
  groups.flatMap optIndices

/-- Number of still-active groups (the `active_count` of the source). -/
def activeCount (groups : List (Option PackGroup)) : Nat :=
  (groups.filterMap id).length

/-- Completeness of the candidate heap: every unordered pair of distinct
still-active groups has a candidate in the heap. -/
def Covered (groups : List (Option PackGroup)) (heap : List MergeCandidate) : Prop :=
  ∀ i j gi gj, i ≠ j → groups.getD i none = some gi → groups.getD j none = some gj →
    ∃ c ∈ heap, (c.group_a_id = i ∧ c.group_b_id = j) ∨ (c.group_a_id = j ∧ c.group_b_id = i)

/-- Descending stability is a total relation. -/
instance stabilityDescIsTotal : IsTotal PackGroup fun a b => b.stability ≤ a.stability :=
  ⟨fun a b => le_total b.stability a.stability⟩

/-- Descending stability is a transitive relation. -/
instance stabilityDescIsTrans : IsTrans PackGroup fun a b => b.stability ≤ a.stability :=
  ⟨fun _ _ _ h1 h2 => le_trans h2 h1⟩

/-! ## Sanity checks

Behavioral checks mirroring the unit tests of the repository
(src/packing.rs, src/cmd_build.rs, src/utils.rs,
src/components/bigfiles.rs, src/components/rpm.rs). -/

example :
    calculate_packing [⟨100, 9/10⟩, ⟨200, 8/10⟩, ⟨300, 7/10⟩] 5 =
      [⟨[0], 100, 9/10⟩, ⟨[1], 200, 8/10⟩, ⟨[2], 300, 7/10⟩] := by
  decide

example :
    (calculate_packing [⟨100, 1/2⟩, ⟨200, 1/2⟩, ⟨300, 1/2⟩] 1).map PackGroup.indices =
      [[0, 1, 2]] := by
  decide

example :
    (calculate_packing [⟨1000, 99/100⟩, ⟨1000, 99/100⟩, ⟨1000, 3/10⟩] 2).map
      PackGroup.indices = [[0, 1], [2]] := by
  decide

example :
    (calculate_packing [⟨10000, 1/2⟩, ⟨10, 1/2⟩, ⟨10, 1/2⟩] 2).map
      PackGroup.indices = [[0], [1, 2]] := by
  decide

example : parse_key_value_pairs ["b=2", "-", "c=3"] [("a", "1")] = .ok [("c", "3")] := rfl

example : shRepo.claims_for_path ["usr", "bin", "sh"] FileType.File = [] := by decide

example : shRepo.claims_for_path ["usr", "bin", "sh"] FileType.Symlink = [0] := by decide

example :
    (BigfilesRepo.load
      [(["a", "foobar"], ⟨FileType.File, 4 * 1024 * 1024, 1, 1⟩),
       (["b", "foobar"], ⟨FileType.File, 4 * 1024 * 1024, 1, 2⟩)] 0).map
      BigfilesRepo.components = some [["foobar"], ["b", "foobar"]] := by
  decide

example :
    (BigfilesRepo.load
      [(["usr", "lib", "modules", "initramfs.img"], ⟨FileType.File, 118 * 1024 * 1024, 1, 7⟩),
       (["usr", "lib", "sysimage", "db", "rpmdb.sqlite"], ⟨FileType.File, 26 * 1024 * 1024, 2, 9⟩),
       (["usr", "share", "rpm", "rpmdb.sqlite"], ⟨FileType.File, 26 * 1024 * 1024, 2, 9⟩),
       (["usr", "bin", "small"], ⟨FileType.File, 1, 1, 11⟩)] 12345).map
      BigfilesRepo.components = some [["initramfs.img"], ["rpmdb.sqlite"]] := by
  decide

example :
    canonicalize_dir_path trootfs tfiles 41 ["lib", "modules"] = .ok ["usr", "lib", "modules"] :=
  rfl

example : canonicalize_dir_path trootfs tfiles 41 ["foo"] = .ok ["usr", "bar"] := rfl

example :
    canonicalize_parent_path trootfs tfiles ["lib", "modules", "vmlinuz"] =
      .ok ["usr", "lib", "modules", "vmlinuz"] := rfl

/-! ## Helper lemmas on the Except monad -/

/-- Binding an error short-circuits. -/
theorem except_bind_error {α β : Type} (e : String) (k : α → Except String β) :
    (Except.error e >>= k) = Except.error e := rfl

/-- Binding a success applies the continuation. -/
theorem except_bind_ok {α β : Type} (a : α) (k : α → Except String β) :
    (Except.ok a >>= k) = k a := rfl

/-! ## Claim C3: non-negativity of the merge loss -/

/-- C3: for any two groups A and B whose stabilities lie in the unit
interval, the merge loss computed by `calculate_merge_loss`, namely
`size_A * stability_A + size_B * stability_B
  - (size_A + size_B) * (stability_A * stability_B)`, is non-negative. -/
theorem claim_C3_merge_loss_nonneg (a b : PackGroup)
    (ha0 : 0 ≤ a.stability) (ha1 : a.stability ≤ 1)
    (hb0 : 0 ≤ b.stability) (hb1 : b.stability ≤ 1) :
    0 ≤ calculate_merge_loss a b := by
  unfold calculate_merge_loss PackGroup.expected_value
  have hA : (0 : ℚ) ≤ (a.size : ℚ) := by positivity
  have hB : (0 : ℚ) ≤ (b.size : ℚ) := by positivity
  push_cast
  nlinarith [mul_nonneg (mul_nonneg hA ha0) (sub_nonneg.mpr hb1),
    mul_nonneg (mul_nonneg hB hb0) (sub_nonneg.mpr ha1)]

/-- Witness for C3 at two concrete groups of stabilities 1/2 and 1/4. -/
theorem claim_C3_merge_loss_nonneg_witness :
    0 ≤ (⟨[0], 100, mkRat 1 2⟩ : PackGroup).stability ∧
    (⟨[0], 100, mkRat 1 2⟩ : PackGroup).stability ≤ 1 ∧
    0 ≤ (⟨[1], 200, mkRat 1 4⟩ : PackGroup).stability ∧
    (⟨[1], 200, mkRat 1 4⟩ : PackGroup).stability ≤ 1 ∧
    0 ≤ calculate_merge_loss ⟨[0], 100, mkRat 1 2⟩ ⟨[1], 200, mkRat 1 4⟩ :=
  ⟨by decide, by decide, by decide, by decide,
    claim_C3_merge_loss_nonneg _ _ (by decide) (by decide) (by decide) (by decide)⟩

/-! ## Claim C9: ALPM metadata file size limit -/

/-- C9: a `desc` or `files` metadata file whose size exceeds 64 MiB makes
`package_info_from_dir` fail with an error, and files of size at most
64 MiB are passed on to the parser. -/
theorem claim_C9_alpm_size_limit {α : Type} (parse : String → Except String α)
    (desc files : AlpmDbFile) :
    (ALPM_DBFILE_MAXIMUM_SIZE < desc.size ∨ ALPM_DBFILE_MAXIMUM_SIZE < files.size →
      ∃ e, package_info_from_dir parse desc files = .error e)
    ∧ (desc.size ≤ ALPM_DBFILE_MAXIMUM_SIZE → files.size ≤ ALPM_DBFILE_MAXIMUM_SIZE →
      package_info_from_dir parse desc files =
        (parse desc.content).bind fun d => (parse files.content).bind fun f => .ok (d, f)) := by
  constructor
  · rintro (h | h)
    · refine ⟨"file is too large", ?_⟩
      unfold package_info_from_dir read_dbfile
      rw [if_pos h]
      rfl
    · cases hd : read_dbfile parse desc with
      | error e =>
        refine ⟨e, ?_⟩
        unfold package_info_from_dir
        rw [hd]
        rfl
      | ok d =>
        refine ⟨"file is too large", ?_⟩
        unfold package_info_from_dir
        rw [hd, except_bind_ok]
        unfold read_dbfile
        rw [if_pos h]
        rfl
  · intro h1 h2
    unfold package_info_from_dir read_dbfile
    rw [if_neg (Nat.not_lt.mpr h1), if_neg (Nat.not_lt.mpr h2)]
    cases hp : parse desc.content with
    | error e => rfl
    | ok d =>
      cases hq : parse files.content with
      | error e => rfl
      | ok f => rfl

/-- Witness for C9: a 64 MiB + 1 sized file is rejected. -/
theorem claim_C9_alpm_size_limit_witness :
    ALPM_DBFILE_MAXIMUM_SIZE < (⟨64 * 1024 * 1024 + 1, ""⟩ : AlpmDbFile).size ∧
    ∃ e, package_info_from_dir (fun s => .ok s) ⟨64 * 1024 * 1024 + 1, ""⟩ ⟨0, ""⟩ = .error e :=
  ⟨by decide,
    (claim_C9_alpm_size_limit (fun s => .ok s) ⟨64 * 1024 * 1024 + 1, ""⟩ ⟨0, ""⟩).1
      (Or.inl (by decide))⟩

/-! ## Claim C7: label mutation semantics -/

/-- C7: `parse_key_value_pairs` processes its pairs in order, where
`KEY=VALUE` sets a key, `KEY-` removes a key, and a bare `-` clears every
label accumulated so far (base map included); in particular with base map
`a ↦ 1` and pairs `b=2, -, c=3` the result is exactly `c ↦ 3`, and the
empty pair list returns the base map unchanged. -/
theorem claim_C7_parse_key_value_pairs :
    (∀ map, parse_key_value_pairs [] map = .ok map)
    ∧ parse_key_value_pairs ["b=2", "-", "c=3"] [("a", "1")] = .ok [("c", "3")]
    ∧ (∀ pair rest map k v, splitOnceEq pair = some (k, v) → k ≠ "" →
        parse_key_value_pairs (pair :: rest) map = parse_key_value_pairs rest (mapInsert map k v))
    ∧ (∀ pair rest map, splitOnceEq pair = none → stripDash pair = some "" →
        parse_key_value_pairs (pair :: rest) map = parse_key_value_pairs rest [])
    ∧ (∀ pair rest map k, splitOnceEq pair = none → stripDash pair = some k → k ≠ "" →
        parse_key_value_pairs (pair :: rest) map = parse_key_value_pairs rest (mapRemove map k)) := by
  refine ⟨fun map => rfl, rfl, ?_, ?_, ?_⟩
  · intro pair rest map k v h1 h2
    simp [parse_key_value_pairs, h1, h2]
  · intro pair rest map h1 h2
    simp [parse_key_value_pairs, h1, h2]
  · intro pair rest map k h1 h2 h3
    simp [parse_key_value_pairs, h1, h2, h3]

/-- Witness for C7 applying the ordered-processing step law at a concrete
pair. -/
theorem claim_C7_parse_key_value_pairs_witness :
    splitOnceEq "b=2" = some ("b", "2") ∧ ("b" : String) ≠ "" ∧
    parse_key_value_pairs ["b=2"] [("a", "1")] =
      parse_key_value_pairs [] (mapInsert [("a", "1")] "b" "2") :=
  ⟨by decide, by decide,
    claim_C7_parse_key_value_pairs.2.2.1 "b=2" [] [("a", "1")] "b" "2" (by decide) (by decide)⟩

/-! ## Claim C8: parent canonicalization keeps the basename -/

/-- C8: for every absolute non-root path, a successful
`canonicalize_parent_path` returns a path with the same final basename;
only the parent is passed through symlink resolution and the leaf is
appended verbatim. -/
theorem claim_C8_canonicalize_parent_keeps_basename
    (rootfs : RPath → Option SymTarget) (files : RPath → Option FileType)
    (path : RPath) (hne : path ≠ []) (r : RPath)
    (h : canonicalize_parent_path rootfs files path = .ok r) :
    r.getLast? = path.getLast? ∧
      ∃ cp, canonicalize_dir_path rootfs files (MAX_SYMLINK_DEPTH + 1) path.dropLast = .ok cp ∧
        r = cp ++ [path.getLastD ""] := by
  unfold canonicalize_parent_path at h
  rw [if_neg hne] at h
  cases hc : canonicalize_dir_path rootfs files (MAX_SYMLINK_DEPTH + 1) path.dropLast with
  | error e =>
    rw [hc, except_bind_error] at h
    exact Except.noConfusion h
  | ok cp =>
    rw [hc, except_bind_ok] at h
    have hr : cp ++ [path.getLastD ""] = r := by injection h
    subst hr
    refine ⟨?_, cp, rfl, rfl⟩
    rw [List.getLast?_concat]
    cases hp : path.getLast? with
    | none => exact absurd (List.getLast?_eq_none_iff.mp hp) hne
    | some y => rw [List.getLastD_eq_getLast?, hp]; rfl

/-- Witness for C8 at the repository's own canonicalization scenario. -/
theorem claim_C8_canonicalize_parent_keeps_basename_witness :
    (["lib", "modules", "vmlinuz"] : RPath) ≠ [] ∧
    (["usr", "lib", "modules", "vmlinuz"] : RPath).getLast? =
      (["lib", "modules", "vmlinuz"] : RPath).getLast? :=
  ⟨by decide,
    (claim_C8_canonicalize_parent_keeps_basename trootfs tfiles
      ["lib", "modules", "vmlinuz"] (by decide) ["usr", "lib", "modules", "vmlinuz"] rfl).1⟩

/-! ## Claim C5: RPM file-type filtering -/

/-- C5: an RPM claim is only returned when the requested file type matches
the file type recorded in the RPM database entry for the path; in
particular `/usr/bin/sh`, recorded as a symlink, yields no claim for the
File type and its owner for the Symlink type. -/
theorem claim_C5_rpm_claims_type_match (repo : RpmRepo) (path : RPath) (ft : FileType)
    (id : Nat) (h : id ∈ repo.claims_for_path path ft) :
    (∃ entries fi, repo.path_to_components.lookup path = some entries ∧
        (id, fi) ∈ entries ∧ file_info_to_file_type fi = some ft)
    ∧ shRepo.claims_for_path ["usr", "bin", "sh"] FileType.File = []
    ∧ shRepo.claims_for_path ["usr", "bin", "sh"] FileType.Symlink = [0] := by
  refine ⟨?_, by decide, by decide⟩
  unfold RpmRepo.claims_for_path at h
  split at h
  · exact absurd h (List.not_mem_nil id)
  · split at h
    next entries heq =>
      simp only [List.mem_map, List.mem_filter] at h
      obtain ⟨⟨i, fi⟩, ⟨hmem, hft⟩, hid⟩ := h
      subst hid
      exact ⟨entries, fi, heq, hmem, of_decide_eq_true hft⟩
    next => exact absurd h (List.not_mem_nil id)

/-- Witness for C5 at the concrete symlink repo. -/
theorem claim_C5_rpm_claims_type_match_witness :
    0 ∈ shRepo.claims_for_path ["usr", "bin", "sh"] FileType.Symlink ∧
    ∃ entries fi, shRepo.path_to_components.lookup ["usr", "bin", "sh"] = some entries ∧
      (0, fi) ∈ entries ∧ file_info_to_file_type fi = some FileType.Symlink :=
  ⟨by decide,
    (claim_C5_rpm_claims_type_match shRepo ["usr", "bin", "sh"] FileType.Symlink 0
      (by decide)).1⟩


/-! ## Helper lemmas for the big-files provider -/

/-- Lookup in an association list ignores a suffix once found. -/
theorem lookup_append_left {β : Type} {l₁ : List (RPath × β)} {p : RPath} {v : β}
    (l₂ : List (RPath × β)) (h : l₁.lookup p = some v) : (l₁ ++ l₂).lookup p = some v := by
  induction l₁ with
  | nil => simp [List.lookup] at h
  | cons e l ih =>
    obtain ⟨k, b⟩ := e
    simp only [List.cons_append, List.lookup] at h ⊢
    cases hk : (p == k) with
    | true => rw [hk] at h; exact h
    | false => rw [hk] at h; exact ih h

/-- Lookup in an association list skips entries with other keys. -/
theorem lookup_append_right {β : Type} {l₁ : List (RPath × β)} {p : RPath}
    (l₂ : List (RPath × β)) (h : ∀ e ∈ l₁, e.1 ≠ p) : (l₁ ++ l₂).lookup p = l₂.lookup p := by
  induction l₁ with
  | nil => rfl
  | cons e l ih =>
    obtain ⟨k, b⟩ := e
    have hk : (p == k) = false :=
      beq_eq_false_iff_ne.mpr fun hpk => h (k, b) (List.mem_cons_self _ _) hpk.symm
    simp only [List.cons_append, List.lookup, hk]
    exact ih fun e he => h e (List.mem_cons_of_mem _ he)

/-- Paths in a bucket of `tblPush` come from the old table or are the pushed
path. -/
theorem tblPush_mem (tbl : List (Nat × List RPath)) (ino : Nat) (x : RPath) :
    ∀ e ∈ tblPush tbl ino x, ∀ q ∈ e.2, (∃ e₂ ∈ tbl, q ∈ e₂.2) ∨ q = x := by
  induction tbl with
  | nil =>
    intro e he q hq
    simp only [tblPush, List.mem_singleton] at he
    subst he
    simp only [List.mem_singleton] at hq
    exact Or.inr hq
  | cons hd rest ih =>
    obtain ⟨k, ps⟩ := hd
    intro e he q hq
    by_cases hk : k = ino
    · simp only [tblPush, if_pos hk] at he
      rcases List.mem_cons.mp he with he | he
      · subst he
        rcases List.mem_append.mp hq with hq | hq
        · exact Or.inl ⟨(k, ps), List.mem_cons_self _ _, hq⟩
        · simp only [List.mem_singleton] at hq
          exact Or.inr hq
      · exact Or.inl ⟨e, List.mem_cons_of_mem _ he, hq⟩
    · simp only [tblPush, if_neg hk] at he
      rcases List.mem_cons.mp he with he | he
      · subst he
        exact Or.inl ⟨(k, ps), List.mem_cons_self _ _, hq⟩
      · rcases ih e he q hq with ⟨e₂, he₂, hq₂⟩ | hx
        · exact Or.inl ⟨e₂, List.mem_cons_of_mem _ he₂, hq₂⟩
        · exact Or.inr hx

/-- A removed bucket was a bucket of the table. -/
theorem tblRemove_fst_mem (tbl : List (Nat × List RPath)) (ino : Nat) (ps : List RPath)
    (h : (tblRemove tbl ino).1 = some ps) : (ino, ps) ∈ tbl := by
  induction tbl with
  | nil => simp [tblRemove] at h
  | cons hd rest ih =>
    obtain ⟨k, qs⟩ := hd
    by_cases hk : k = ino
    · simp only [tblRemove, if_pos hk] at h
      injection h with h
      subst hk h
      exact List.mem_cons_self _ _
    · simp only [tblRemove, if_neg hk] at h
      exact List.mem_cons_of_mem _ (ih h)

/-- Removing a bucket keeps the table a sublist of itself. -/
theorem tblRemove_snd_subset (tbl : List (Nat × List RPath)) (ino : Nat) :
    ∀ e ∈ (tblRemove tbl ino).2, e ∈ tbl := by
  induction tbl with
  | nil => intro e he; simp [tblRemove] at he
  | cons hd rest ih =>
    obtain ⟨k, qs⟩ := hd
    intro e he
    by_cases hk : k = ino
    · simp only [tblRemove, if_pos hk] at he
      exact List.mem_cons_of_mem _ he
    · simp only [tblRemove, if_neg hk] at he
      rcases List.mem_cons.mp he with he | he
      · subst he; exact List.mem_cons_self _ _
      · exact List.mem_cons_of_mem _ (ih e he)

/-- With pairwise distinct keys, a key determines its value. -/
theorem keys_nodup_value_unique {β : Type} {files : List (RPath × β)}
    (h : (files.map Prod.fst).Nodup) {p : RPath} {a b : β}
    (ha : (p, a) ∈ files) (hb : (p, b) ∈ files) : a = b := by
  induction files with
  | nil => simp at ha
  | cons hd rest ih =>
    obtain ⟨k, x⟩ := hd
    simp only [List.map_cons, List.nodup_cons] at h
    rcases List.mem_cons.mp ha with ha | ha <;> rcases List.mem_cons.mp hb with hb | hb
    · injection ha with ha1 ha2
      injection hb with hb1 hb2
      rw [ha2, hb2]
    · injection ha with ha1 ha2
      exact absurd (show k ∈ rest.map Prod.fst from List.mem_map.mpr ⟨(p, b), hb, ha1⟩) h.1
    · injection hb with hb1 hb2
      exact absurd (show k ∈ rest.map Prod.fst from List.mem_map.mpr ⟨(p, a), ha, hb1⟩) h.1
    · exact ih h.2 ha hb

/-- Every path in the inode table built by `buildInodeTable` belongs to a
hardlinked file of the file map. -/
theorem buildInodeTable_mem (files : List (RPath × BFileInfo)) :
    ∀ e ∈ buildInodeTable files, ∀ q ∈ e.2, ∃ fq, (q, fq) ∈ files ∧ 1 < fq.nlink := by
  have main :
      ∀ (l : List (RPath × BFileInfo)) (acc : List (Nat × List RPath)),
        (∀ e ∈ acc, ∀ q ∈ e.2, ∃ fq, (q, fq) ∈ files ∧ 1 < fq.nlink) →
        (∀ pf ∈ l, pf ∈ files) →
        ∀ e ∈ l.foldl
          (fun tbl pf =>
            if pf.2.file_type = FileType.File ∧ 1 < pf.2.nlink ∧ MIN_SIZE ≤ pf.2.size then
              tblPush tbl pf.2.ino pf.1
            else tbl) acc,
          ∀ q ∈ e.2, ∃ fq, (q, fq) ∈ files ∧ 1 < fq.nlink := by
    intro l
    induction l with
    | nil => intro acc hacc _ e he q hq; exact hacc e he q hq
    | cons pf rest ih =>
      intro acc hacc hsub
      simp only [List.foldl_cons]
      by_cases hc : pf.2.file_type = FileType.File ∧ 1 < pf.2.nlink ∧ MIN_SIZE ≤ pf.2.size
      · rw [if_pos hc]
        refine ih _ ?_ fun e he => hsub e (List.mem_cons_of_mem _ he)
        intro e he q hq
        rcases tblPush_mem acc pf.2.ino pf.1 e he q hq with ⟨e₂, he₂, hq₂⟩ | hx
        · exact hacc e₂ he₂ q hq₂
        · subst hx
          exact ⟨pf.2, by simpa using hsub pf (List.mem_cons_self _ _), hc.2.1⟩
      · rw [if_neg hc]
        exact ih acc hacc fun e he => hsub e (List.mem_cons_of_mem _ he)
  intro e he q hq
  exact main files [] (fun e he => by simp at he) (fun pf h => h) e
    (by simpa [buildInodeTable] using he) q hq

/-- Unfolding of the load loop on an empty file list. -/
theorem bigfiles_load_go_nil (st : BigfilesState) : bigfiles_load_go [] st = st := rfl

/-- Unfolding of the load loop on a cons. -/
theorem bigfiles_load_go_cons (head : RPath × BFileInfo) (rest : List (RPath × BFileInfo))
    (st : BigfilesState) :
    bigfiles_load_go (head :: rest) st = bigfiles_load_go rest (bigfiles_step st head) := rfl

/-- Unfolding of the load loop on an append. -/
theorem bigfiles_load_go_append (l₁ l₂ : List (RPath × BFileInfo)) (st : BigfilesState) :
    bigfiles_load_go (l₁ ++ l₂) st = bigfiles_load_go l₂ (bigfiles_load_go l₁ st) :=
  List.foldl_append _ _ _ _

/-- Membership in the component list after `insertFull`. -/
theorem insertFull_mem (comps : List (List String)) (nm x : List String)
    (h : x ∈ (insertFull comps nm).2) : x ∈ comps ∨ x = nm := by
  unfold insertFull at h
  by_cases hm : nm ∈ comps
  · rw [if_pos hm] at h
    exact Or.inl h
  · rw [if_neg hm] at h
    rcases List.mem_append.mp h with h | h
    · exact Or.inl h
    · exact Or.inr (List.mem_singleton.mp h)

/-- A fresh name is appended at the end of the component list. -/
theorem insertFull_not_mem (comps : List (List String)) (nm : List String) (h : nm ∉ comps) :
    insertFull comps nm = (comps.length, comps ++ [nm]) := by
  unfold insertFull
  rw [if_neg h]

/-- The component list never shrinks. -/
theorem insertFull_length (comps : List (List String)) (nm : List String) :
    comps.length ≤ (insertFull comps nm).2.length := by
  unfold insertFull
  by_cases hm : nm ∈ comps
  · rw [if_pos hm]
  · rw [if_neg hm]
    simp

/-- Existing component names are untouched by `insertFull`. -/
theorem insertFull_getD (comps : List (List String)) (nm : List String) (idx : Nat)
    (h : idx < comps.length) : (insertFull comps nm).2.getD idx [] = comps.getD idx [] := by
  unfold insertFull
  by_cases hm : nm ∈ comps
  · rw [if_pos hm]
  · rw [if_neg hm]
    exact List.getD_append _ _ _ _ h

/-- A file failing one of the guards leaves the load state unchanged. -/
theorem bigfiles_step_skip (st : BigfilesState) (pf : RPath × BFileInfo)
    (h : pf.2.file_type ≠ FileType.File ∨ pf.2.size < MIN_SIZE ∨
      (1 < pf.2.nlink ∧ (st.2.2.lookup pf.2.ino).isNone)) :
    bigfiles_step st pf = st := by
  unfold bigfiles_step
  rcases h with h | h | h
  · rw [if_pos (Or.inl h)]
  · rw [if_pos (Or.inr h)]
  · by_cases h1 : pf.2.file_type ≠ FileType.File ∨ pf.2.size < MIN_SIZE
    · rw [if_pos h1]
    · rw [if_neg h1, if_pos h]

/-- Characterization of a processed file: both guards are off, so the step
names a component for the file and registers the path and its hardlinked
siblings under it. -/
theorem bigfiles_step_proc (st : BigfilesState) (pf : RPath × BFileInfo)
    (h1 : pf.2.file_type = FileType.File) (h2 : MIN_SIZE ≤ pf.2.size)
    (h3 : ¬(1 < pf.2.nlink ∧ (st.2.2.lookup pf.2.ino).isNone)) :
    bigfiles_step st pf =
      ((insertFull st.1 (if [pf.1.getLastD ""] ∈ st.1 then pf.1 else [pf.1.getLastD ""])).2,
       (st.2.1 ++ [(pf.1, (insertFull st.1
            (if [pf.1.getLastD ""] ∈ st.1 then pf.1 else [pf.1.getLastD ""])).1)]) ++
         ((tblRemove st.2.2 pf.2.ino).1.getD []).map
           (fun lp => (lp, (insertFull st.1
             (if [pf.1.getLastD ""] ∈ st.1 then pf.1 else [pf.1.getLastD ""])).1)),
       (tblRemove st.2.2 pf.2.ino).2) := by
  have hg1 : ¬(pf.2.file_type ≠ FileType.File ∨ pf.2.size < MIN_SIZE) := by
    push_neg
    exact ⟨h1, h2⟩
  unfold bigfiles_step
  rw [if_neg hg1, if_neg h3]
  cases hrem : (tblRemove st.2.2 pf.2.ino).1 with
  | none => simp [hrem]
  | some linked => simp [hrem]

/-- Names appearing after one step: either already present, or the basename
or full path of the processed qualifying file. -/
theorem bigfiles_step_names (st : BigfilesState) (pf : RPath × BFileInfo) :
    ∀ name ∈ (bigfiles_step st pf).1,
      name ∈ st.1 ∨
        (pf.2.file_type = FileType.File ∧ MIN_SIZE ≤ pf.2.size ∧
          (name = [pf.1.getLastD ""] ∨ name = pf.1)) := by
  intro name hname
  by_cases h1 : pf.2.file_type = FileType.File
  · by_cases h2 : MIN_SIZE ≤ pf.2.size
    · by_cases h3 : 1 < pf.2.nlink ∧ (st.2.2.lookup pf.2.ino).isNone
      · rw [bigfiles_step_skip st pf (Or.inr (Or.inr h3))] at hname
        exact Or.inl hname
      · rw [bigfiles_step_proc st pf h1 h2 h3] at hname
        rcases insertFull_mem _ _ _ hname with hname | hname
        · exact Or.inl hname
        · by_cases hm : [pf.1.getLastD ""] ∈ st.1
          · rw [if_pos hm] at hname
            exact Or.inr ⟨h1, h2, Or.inr hname⟩
          · rw [if_neg hm] at hname
            exact Or.inr ⟨h1, h2, Or.inl hname⟩
    · rw [bigfiles_step_skip st pf (Or.inr (Or.inl (Nat.not_le.mp h2)))] at hname
      exact Or.inl hname
  · rw [bigfiles_step_skip st pf (Or.inl h1)] at hname
    exact Or.inl hname

/-- Names collected by the load loop: either present at entry, or the
basename or full path of one of the qualifying files. -/
theorem bigfiles_go_names (files : List (RPath × BFileInfo)) :
    ∀ st, ∀ name ∈ (bigfiles_load_go files st).1,
      name ∈ st.1 ∨ ∃ pf ∈ files, pf.2.file_type = FileType.File ∧ MIN_SIZE ≤ pf.2.size ∧
        (name = [pf.1.getLastD ""] ∨ name = pf.1) := by
  induction files with
  | nil => intro st name h; exact Or.inl h
  | cons head rest ih =>
    intro st name h
    rw [bigfiles_load_go_cons] at h
    rcases ih (bigfiles_step st head) name h with h | ⟨pf, hpf, hh1, hh2, hh3⟩
    · rcases bigfiles_step_names st head name h with h | ⟨hh1, hh2, hh3⟩
      · exact Or.inl h
      · exact Or.inr ⟨head, List.mem_cons_self _ _, hh1, hh2, hh3⟩
    · exact Or.inr ⟨pf, List.mem_cons_of_mem _ hpf, hh1, hh2, hh3⟩

/-- One step preserves the p-freshness invariant: the basename of `p` is not
yet a component name, no path-map entry is keyed by `p`, and no inode bucket
contains `p`. -/
theorem bigfiles_step_inv (p : RPath) (st : BigfilesState) (pf : RPath × BFileInfo)
    (hne : pf.1 ≠ p)
    (hbase : pf.2.file_type = FileType.File → MIN_SIZE ≤ pf.2.size →
      pf.1.getLastD "" ≠ p.getLastD "")
    (hc : [p.getLastD ""] ∉ st.1)
    (hp2c : ∀ e ∈ st.2.1, e.1 ≠ p)
    (htbl : ∀ e ∈ st.2.2, ∀ q ∈ e.2, q ≠ p) :
    [p.getLastD ""] ∉ (bigfiles_step st pf).1 ∧
      (∀ e ∈ (bigfiles_step st pf).2.1, e.1 ≠ p) ∧
      (∀ e ∈ (bigfiles_step st pf).2.2, ∀ q ∈ e.2, q ≠ p) := by
  by_cases h1 : pf.2.file_type = FileType.File
  case neg =>
    rw [bigfiles_step_skip st pf (Or.inl h1)]
    exact ⟨hc, hp2c, htbl⟩
  by_cases h2 : MIN_SIZE ≤ pf.2.size
  case neg =>
    rw [bigfiles_step_skip st pf (Or.inr (Or.inl (Nat.not_le.mp h2)))]
    exact ⟨hc, hp2c, htbl⟩
  by_cases h3 : 1 < pf.2.nlink ∧ (st.2.2.lookup pf.2.ino).isNone
  case pos =>
    rw [bigfiles_step_skip st pf (Or.inr (Or.inr h3))]
    exact ⟨hc, hp2c, htbl⟩
  rw [bigfiles_step_proc st pf h1 h2 h3]
  have hbase2 := hbase h1 h2
  refine ⟨?_, ?_, ?_⟩
  · intro hmem
    rcases insertFull_mem _ _ _ hmem with hmem | hmem
    · exact hc hmem
    · by_cases hm : [pf.1.getLastD ""] ∈ st.1
      · rw [if_pos hm] at hmem
        apply hbase2
        rw [← hmem]
        simp [List.getLastD]
      · rw [if_neg hm] at hmem
        injection hmem with hh _
        exact hbase2 hh.symm
  · intro e he
    rcases List.mem_append.mp he with he | he
    · rcases List.mem_append.mp he with he | he
      · exact hp2c e he
      · rw [List.mem_singleton.mp he]
        exact hne
    · rcases List.mem_map.mp he with ⟨lp, hlp, hlp2⟩
      rw [← hlp2]
      cases hrem : (tblRemove st.2.2 pf.2.ino).1 with
      | none =>
        rw [hrem] at hlp
        simp at hlp
      | some linked =>
        rw [hrem] at hlp
        simp only [Option.getD_some] at hlp
        exact htbl _ (tblRemove_fst_mem _ _ _ hrem) lp hlp
  · intro e he
    exact htbl e (tblRemove_snd_subset _ _ e he)

/-- The load loop preserves the p-freshness invariant over files that do not
collide with `p`. -/
theorem bigfiles_go_inv (p : RPath) (files : List (RPath × BFileInfo)) :
    ∀ st : BigfilesState,
      (∀ e ∈ files, e.1 ≠ p ∧ (e.2.file_type = FileType.File → MIN_SIZE ≤ e.2.size →
        e.1.getLastD "" ≠ p.getLastD "")) →
      [p.getLastD ""] ∉ st.1 → (∀ e ∈ st.2.1, e.1 ≠ p) →
      (∀ e ∈ st.2.2, ∀ q ∈ e.2, q ≠ p) →
      [p.getLastD ""] ∉ (bigfiles_load_go files st).1 ∧
        (∀ e ∈ (bigfiles_load_go files st).2.1, e.1 ≠ p) ∧
        (∀ e ∈ (bigfiles_load_go files st).2.2, ∀ q ∈ e.2, q ≠ p) := by
  induction files with
  | nil => intro st _ hc hp2c htbl; exact ⟨hc, hp2c, htbl⟩
  | cons head rest ih =>
    intro st hfiles hc hp2c htbl
    rw [bigfiles_load_go_cons]
    have hhead := hfiles head (List.mem_cons_self _ _)
    have hstep := bigfiles_step_inv p st head hhead.1 hhead.2 hc hp2c htbl
    exact ih (bigfiles_step st head)
      (fun e he => hfiles e (List.mem_cons_of_mem _ he)) hstep.1 hstep.2.1 hstep.2.2

/-- One step keeps an existing path binding and its component name. -/
theorem bigfiles_step_keeps (st : BigfilesState) (pf : RPath × BFileInfo) (p : RPath) (idx : Nat)
    (hl : st.2.1.lookup p = some idx) (hi : idx < st.1.length) :
    (bigfiles_step st pf).2.1.lookup p = some idx ∧ idx < (bigfiles_step st pf).1.length ∧
      (bigfiles_step st pf).1.getD idx [] = st.1.getD idx [] := by
  by_cases h1 : pf.2.file_type = FileType.File
  case neg =>
    rw [bigfiles_step_skip st pf (Or.inl h1)]
    exact ⟨hl, hi, rfl⟩
  by_cases h2 : MIN_SIZE ≤ pf.2.size
  case neg =>
    rw [bigfiles_step_skip st pf (Or.inr (Or.inl (Nat.not_le.mp h2)))]
    exact ⟨hl, hi, rfl⟩
  by_cases h3 : 1 < pf.2.nlink ∧ (st.2.2.lookup pf.2.ino).isNone
  case pos =>
    rw [bigfiles_step_skip st pf (Or.inr (Or.inr h3))]
    exact ⟨hl, hi, rfl⟩
  rw [bigfiles_step_proc st pf h1 h2 h3]
  refine ⟨lookup_append_left _ (lookup_append_left _ hl), ?_, insertFull_getD _ _ _ hi⟩
  exact lt_of_lt_of_le hi (insertFull_length _ _)

/-- The load loop keeps an existing path binding and its component name. -/
theorem bigfiles_go_keeps (files : List (RPath × BFileInfo)) :
    ∀ (st : BigfilesState) (p : RPath) (idx : Nat),
      st.2.1.lookup p = some idx → idx < st.1.length →
      (bigfiles_load_go files st).2.1.lookup p = some idx ∧
        idx < (bigfiles_load_go files st).1.length ∧
        (bigfiles_load_go files st).1.getD idx [] = st.1.getD idx [] := by
  induction files with
  | nil => intro st p idx hl hi; exact ⟨hl, hi, rfl⟩
  | cons head rest ih =>
    intro st p idx hl hi
    rw [bigfiles_load_go_cons]
    have hstep := bigfiles_step_keeps st head p idx hl hi
    have := ih (bigfiles_step st head) p idx hstep.1 hstep.2.1
    exact ⟨this.1, this.2.1, this.2.2.trans hstep.2.2⟩

/-- Processing a fresh, non-hardlinked qualifying file creates a component
named by its basename and binds the path to it. -/
theorem bigfiles_step_creates (st : BigfilesState) (p : RPath) (fi : BFileInfo)
    (h1 : fi.file_type = FileType.File) (h2 : MIN_SIZE ≤ fi.size) (h3 : fi.nlink ≤ 1)
    (hc : [p.getLastD ""] ∉ st.1) (hp2c : ∀ e ∈ st.2.1, e.1 ≠ p) :
    (bigfiles_step st (p, fi)).2.1.lookup p = some st.1.length ∧
      st.1.length < (bigfiles_step st (p, fi)).1.length ∧
      (bigfiles_step st (p, fi)).1.getD st.1.length [] = [p.getLastD ""] := by
  have h3n : ¬(1 < fi.nlink ∧ ((st.2.2.lookup fi.ino).isNone)) := fun hh =>
    absurd hh.1 (Nat.not_lt.mpr h3)
  rw [bigfiles_step_proc st (p, fi) h1 h2 h3n]
  simp only [if_neg hc, insertFull_not_mem st.1 [p.getLastD ""] hc]
  refine ⟨?_, by simp, ?_⟩
  · apply lookup_append_left
    rw [lookup_append_right _ hp2c]
    simp [List.lookup]
  · rw [List.getD_append_right _ _ _ _ (le_refl _)]
    simp

/-- C6 counterexample: on two qualifying files `/a/foobar` and `/b/foobar`
the component of the first is named by the bare basename even though that
basename is not unique across the provider's components, so the claimed
naming rule (basename only if unique, otherwise stripped path) fails at
this concrete input. -/
theorem claim_C6_counterexample :
    bigfilesNamingClaim
      [(["a", "foobar"], ⟨FileType.File, 4 * 1024 * 1024, 1, 1⟩),
       (["b", "foobar"], ⟨FileType.File, 4 * 1024 * 1024, 1, 2⟩)] 0 = false := by
  decide

/-- C6 amended: every big-files component is named by the basename or by the
stripped absolute path of one of the provider's qualifying files; a
non-hardlinked qualifying file whose basename is unique among the
qualifying files always gets a component named by its basename; when
several qualifying files share a basename, the first processed keeps the
basename and later ones are named by their stripped path (shown on the
repository's duplicate-basename scenario). -/
theorem claim_C6_bigfiles_naming (files : List (RPath × BFileInfo)) (dmc : Nat)
    (repo : BigfilesRepo) (hload : BigfilesRepo.load files dmc = some repo)
    (hkeys : (files.map Prod.fst).Nodup)
    (p : RPath) (fi : BFileInfo) (hpfi : (p, fi) ∈ files)
    (h1 : fi.file_type = FileType.File) (h2 : MIN_SIZE ≤ fi.size) (h3 : fi.nlink ≤ 1)
    (huniq : ∀ e ∈ files, e.1 ≠ p → e.2.file_type = FileType.File → MIN_SIZE ≤ e.2.size →
      e.1.getLastD "" ≠ p.getLastD "") :
    (∃ idx, repo.path_to_component.lookup p = some idx ∧
        repo.components.getD idx [] = [p.getLastD ""])
    ∧ (∀ name ∈ repo.components, ∃ pf ∈ files, pf.2.file_type = FileType.File ∧
        MIN_SIZE ≤ pf.2.size ∧ (name = [pf.1.getLastD ""] ∨ name = pf.1))
    ∧ (BigfilesRepo.load
        [(["a", "foobar"], ⟨FileType.File, 4 * 1024 * 1024, 1, 1⟩),
         (["b", "foobar"], ⟨FileType.File, 4 * 1024 * 1024, 1, 2⟩)] 0).map
        BigfilesRepo.components = some [["foobar"], ["b", "foobar"]] := by
  have hrepo : repo.components =
      (bigfiles_load_go files ([], [], buildInodeTable files)).1 ∧
      repo.path_to_component =
        (bigfiles_load_go files ([], [], buildInodeTable files)).2.1 := by
    unfold BigfilesRepo.load at hload
    by_cases he : (bigfiles_load_go files ([], [], buildInodeTable files)).1.isEmpty
    · rw [if_pos he] at hload
      exact Option.noConfusion hload
    · rw [if_neg he] at hload
      injection hload with hload
      rw [← hload]
      exact ⟨rfl, rfl⟩
  have hnames : ∀ name ∈ repo.components, ∃ pf ∈ files, pf.2.file_type = FileType.File ∧
      MIN_SIZE ≤ pf.2.size ∧ (name = [pf.1.getLastD ""] ∨ name = pf.1) := by
    rw [hrepo.1]
    intro name hname
    rcases bigfiles_go_names files _ name hname with h | h
    · simp at h
    · exact h
  refine ⟨?_, hnames, by decide⟩
  obtain ⟨pre, post, hsplit⟩ := List.append_of_mem hpfi
  have hmid : (p :: (pre.map Prod.fst ++ post.map Prod.fst)).Nodup := by
    rw [← List.nodup_middle]
    simpa [hsplit] using hkeys
  have hnotp : p ∉ pre.map Prod.fst ++ post.map Prod.fst := (List.nodup_cons.mp hmid).1
  have hpre_ne : ∀ e ∈ pre, e.1 ≠ p := by
    intro e he hep
    exact hnotp (List.mem_append_left _ (List.mem_map.mpr ⟨e, he, hep⟩))
  have htbl0 : ∀ e ∈ buildInodeTable files, ∀ q ∈ e.2, q ≠ p := by
    intro e he q hq hqp
    subst hqp
    obtain ⟨fq, hfq, hnl⟩ := buildInodeTable_mem files e he q hq
    rw [keys_nodup_value_unique hkeys hfq hpfi] at hnl
    exact absurd hnl (Nat.not_lt.mpr h3)
  have hgo : ∀ st : BigfilesState, bigfiles_load_go files st =
      bigfiles_load_go post (bigfiles_step (bigfiles_load_go pre st) (p, fi)) := by
    intro st
    rw [hsplit, bigfiles_load_go_append, bigfiles_load_go_cons]
  rw [hrepo.2, hrepo.1, hgo]
  have hinv1 := bigfiles_go_inv p pre ([], [], buildInodeTable files)
    (fun e he => ⟨hpre_ne e he,
      fun hT hS => huniq e (hsplit ▸ List.mem_append_left _ he) (hpre_ne e he) hT hS⟩)
    (by simp) (by simp) htbl0
  have hcreate := bigfiles_step_creates (bigfiles_load_go pre ([], [], buildInodeTable files))
    p fi h1 h2 h3 hinv1.1 hinv1.2.1
  have hkeep := bigfiles_go_keeps post _ p
    (bigfiles_load_go pre ([], [], buildInodeTable files)).1.length hcreate.1 hcreate.2.1
  exact ⟨(bigfiles_load_go pre ([], [], buildInodeTable files)).1.length,
    hkeep.1, hkeep.2.2.trans hcreate.2.2⟩

/-- Witness for the amended C6 on a single qualifying file with a unique
basename. -/
theorem claim_C6_bigfiles_naming_witness :
    BigfilesRepo.load [(["usr", "big"], ⟨FileType.File, 2 * 1024 * 1024, 1, 5⟩)] 0 =
      some ⟨[["big"]], [(["usr", "big"], 0)], 0⟩ ∧
    ∃ idx,
      (⟨[["big"]], [(["usr", "big"], 0)], 0⟩ : BigfilesRepo).path_to_component.lookup
        ["usr", "big"] = some idx ∧
      (⟨[["big"]], [(["usr", "big"], 0)], 0⟩ : BigfilesRepo).components.getD idx [] = ["big"] :=
  ⟨by decide,
    (claim_C6_bigfiles_naming [(["usr", "big"], ⟨FileType.File, 2 * 1024 * 1024, 1, 5⟩)] 0
      ⟨[["big"]], [(["usr", "big"], 0)], 0⟩ (by decide) (by decide)
      ["usr", "big"] ⟨FileType.File, 2 * 1024 * 1024, 1, 5⟩ (by decide)
      (by decide) (by decide) (by decide) (by decide)).1⟩

/-- C2: for all inputs, `calculate_stability` computes exactly the spec's
reference algorithm (empty changelog replaced by the build time, lookback
filter with saturating subtraction, 0.99 for an empty filtered list, 0 for
a span below one day, and otherwise `exp(-(len/span_days) * 7)`). -/
theorem claim_C2_stability_matches_spec (changelog_times : List Nat) (buildtime now : Nat) :
    calculate_stability changelog_times buildtime now =
      spec_stability changelog_times buildtime now := by
  unfold calculate_stability spec_stability
  simp only [SECS_PER_DAY, STABILITY_LOOKBACK_DAYS, STABILITY_PERIOD_DAYS, List.isEmpty_iff]
  norm_num

/-! ## Packing proofs: heap and state lemmas -/

/-- Reading beside the written position is unchanged. -/
theorem getD_set_ne (l : List (Option PackGroup)) (i j : Nat) (h : i ≠ j)
    (v : Option PackGroup) : (l.set i v).getD j none = l.getD j none := by
  rw [List.getD_eq_getElem?_getD, List.getD_eq_getElem?_getD, List.getElem?_set_ne h]

/-- A slot holding a group lies inside the list. -/
theorem getD_some_lt (l : List (Option PackGroup)) (i : Nat) (g : PackGroup)
    (h : l.getD i none = some g) : i < l.length := by
  by_contra hlt
  rw [List.getD_eq_default _ _ (Nat.le_of_not_lt hlt)] at h
  exact Option.noConfusion h

/-- A slot holding a group is a member of the list. -/
theorem getD_some_mem (l : List (Option PackGroup)) (i : Nat) (g : PackGroup)
    (h : l.getD i none = some g) : some g ∈ l := by
  rw [List.getD_eq_getElem?_getD] at h
  cases he : l[i]? with
  | none => rw [he] at h; exact Option.noConfusion h
  | some o =>
    rw [he] at h
    simp only [Option.getD_some] at h
    subst h
    obtain ⟨hlt, hg⟩ := List.getElem?_eq_some.mp he
    exact hg ▸ List.getElem_mem hlt

/-- An empty pop means an empty heap. -/
theorem popMin_none (heap : List MergeCandidate) (h : popMin heap = none) : heap = [] := by
  cases heap with
  | nil => rfl
  | cons c rest =>
    simp only [popMin] at h
    cases hr : popMin rest with
    | none => rw [hr] at h; exact Option.noConfusion h
    | some pr =>
      obtain ⟨m, rest2⟩ := pr
      rw [hr] at h
      dsimp only at h
      split at h <;> exact Option.noConfusion h

/-- Popping removes exactly one occurrence: the heap is a permutation of the
popped element consed on the remainder. -/
theorem popMin_perm (heap : List MergeCandidate) :
    ∀ (c : MergeCandidate) (rest : List MergeCandidate),
      popMin heap = some (c, rest) → heap.Perm (c :: rest) := by
  induction heap with
  | nil => intro c rest h; simp [popMin] at h
  | cons x xs ih =>
    intro c rest h
    simp only [popMin] at h
    cases hr : popMin xs with
    | none =>
      rw [hr] at h
      simp only [Option.some.injEq, Prod.mk.injEq] at h
      obtain ⟨h1, h2⟩ := h
      subst h1
      subst h2
      rw [popMin_none xs hr]
    | some pr =>
      obtain ⟨m, rest2⟩ := pr
      rw [hr] at h
      dsimp only at h
      by_cases hc : x.loss ≤ m.loss
      · rw [if_pos hc] at h
        simp only [Option.some.injEq, Prod.mk.injEq] at h
        obtain ⟨h1, h2⟩ := h
        subst h1
        subst h2
        exact List.Perm.refl _
      · rw [if_neg hc] at h
        simp only [Option.some.injEq, Prod.mk.injEq] at h
        obtain ⟨h1, h2⟩ := h
        subst h1
        subst h2
        exact ((ih m rest2 hr).cons x).trans (List.Perm.swap m x rest2)

/-- A nonempty heap pops an element. -/
theorem popMin_isSome (heap : List MergeCandidate) (hne : heap ≠ []) :
    ∃ c rest, popMin heap = some (c, rest) := by
  cases hp : popMin heap with
  | none => exact absurd (popMin_none _ hp) hne
  | some pr => exact ⟨pr.1, pr.2, by rfl⟩

/-- Fresh candidates pair the merged group with a distinct partner. -/
theorem newCandidates_mem (newG : PackGroup) (new_id : Nat) :
    ∀ (l : List (Option PackGroup)) (i : Nat), ∀ c ∈ newCandidates newG new_id i l,
      c.group_a_id = new_id ∧ c.group_b_id ≠ new_id := by
  intro l
  induction l with
  | nil => intro i c hc; simp [newCandidates] at hc
  | cons og rest ih =>
    intro i c hc
    simp only [newCandidates] at hc
    rcases List.mem_append.mp hc with hc | hc
    · by_cases hi : i = new_id
      · rw [if_pos hi] at hc
        simp at hc
      · rw [if_neg hi] at hc
        cases og with
        | none => simp at hc
        | some g =>
          simp only [List.mem_singleton] at hc
          subst hc
          exact ⟨rfl, hi⟩
    · exact ih (i + 1) c hc

/-- Every still-active partner receives a fresh candidate. -/
theorem newCandidates_covered (newG : PackGroup) (new_id : Nat) :
    ∀ (l : List (Option PackGroup)) (i j : Nat) (g : PackGroup),
      l.getD j none = some g → i + j ≠ new_id →
      ∃ c ∈ newCandidates newG new_id i l,
        c.group_a_id = new_id ∧ c.group_b_id = i + j := by
  intro l
  induction l with
  | nil =>
    intro i j g hg _
    simp [List.getD] at hg
  | cons og rest ih =>
    intro i j g hg hne
    cases j with
    | zero =>
      have hog : og = some g := hg
      have hmem : (⟨calculate_merge_loss newG g, new_id, i⟩ : MergeCandidate) ∈
          newCandidates newG new_id i (og :: rest) := by
        simp only [newCandidates]
        apply List.mem_append_left
        rw [hog, if_neg (by omega : ¬ i = new_id)]
        exact List.mem_singleton.mpr rfl
      exact ⟨_, hmem, rfl, (Nat.add_zero i).symm⟩
    | succ j =>
      obtain ⟨c, hc, h1, h2⟩ := ih (i + 1) j g (by simpa using hg) (by omega)
      refine ⟨c, ?_, h1, by omega⟩
      simp only [newCandidates]
      exact List.mem_append_right _ hc

/-- The count of active groups, by slot. -/
theorem activeCount_cons_some (g : PackGroup) (rest : List (Option PackGroup)) :
    activeCount (some g :: rest) = activeCount rest + 1 := by
  simp [activeCount]

/-- A consumed slot does not count. -/
theorem activeCount_cons_none (rest : List (Option PackGroup)) :
    activeCount (none :: rest) = activeCount rest := by
  simp [activeCount]

/-- Appending one active group adds one. -/
theorem activeCount_append_some (l : List (Option PackGroup)) (g : PackGroup) :
    activeCount (l ++ [some g]) = activeCount l + 1 := by
  simp [activeCount]

/-- At most one candidate is produced per still-active partner. -/
theorem newCandidates_length (newG : PackGroup) (new_id : Nat) :
    ∀ (l : List (Option PackGroup)) (i : Nat),
      (newCandidates newG new_id i l).length ≤ activeCount l := by
  intro l
  induction l with
  | nil => intro i; simp [newCandidates, activeCount]
  | cons og rest ih =>
    intro i
    cases og with
    | none =>
      have hrw : newCandidates newG new_id i (none :: rest) =
          (if i = new_id then [] else []) ++ newCandidates newG new_id (i + 1) rest := rfl
      rw [hrw, activeCount_cons_none]
      have h1 := ih (i + 1)
      split <;> simpa using h1
    | some g =>
      have hrw : newCandidates newG new_id i (some g :: rest) =
          (if i = new_id then []
            else [⟨calculate_merge_loss newG g, new_id, i⟩]) ++
            newCandidates newG new_id (i + 1) rest := rfl
      rw [hrw, activeCount_cons_some, List.length_append]
      have h1 := ih (i + 1)
      split
      · simpa using Nat.le_succ_of_le h1
      · simp only [List.length_singleton]
        omega

/-- Consuming an active slot lowers the active count by one. -/
theorem activeCount_set_none (l : List (Option PackGroup)) :
    ∀ (i : Nat) (g : PackGroup), l.getD i none = some g →
      activeCount l = activeCount (l.set i none) + 1 := by
  induction l with
  | nil => intro i g h; simp [List.getD] at h
  | cons og rest ih =>
    intro i g h
    cases i with
    | zero =>
      have hog : og = some g := h
      subst hog
      rw [List.set_cons_zero, activeCount_cons_some, activeCount_cons_none]
    | succ i =>
      have h2 : rest.getD i none = some g := by simpa using h
      rw [List.set_cons_succ]
      cases og with
      | none => rw [activeCount_cons_none, activeCount_cons_none]; exact ih i g h2
      | some g2 =>
        rw [activeCount_cons_some, activeCount_cons_some, ih i g h2]

/-- A positive active count exhibits an active slot. -/
theorem activeCount_pos (l : List (Option PackGroup)) (h : 1 ≤ activeCount l) :
    ∃ i g, l.getD i none = some g := by
  induction l with
  | nil => simp [activeCount] at h
  | cons og rest ih =>
    cases og with
    | some g => exact ⟨0, g, rfl⟩
    | none =>
      rw [activeCount_cons_none] at h
      obtain ⟨i, g, hg⟩ := ih h
      exact ⟨i + 1, g, by simpa using hg⟩

/-- An active count of at least two exhibits two distinct active slots. -/
theorem activeCount_two (l : List (Option PackGroup)) (h : 2 ≤ activeCount l) :
    ∃ i j, i ≠ j ∧ (∃ g, l.getD i none = some g) ∧ ∃ g, l.getD j none = some g := by
  induction l with
  | nil => simp [activeCount] at h
  | cons og rest ih =>
    cases og with
    | some g =>
      rw [activeCount_cons_some] at h
      obtain ⟨j, g2, hg2⟩ := activeCount_pos rest (by omega)
      exact ⟨0, j + 1, by omega, ⟨g, rfl⟩, ⟨g2, by simpa using hg2⟩⟩
    | none =>
      rw [activeCount_cons_none] at h
      obtain ⟨i, j, hij, ⟨gi, hgi⟩, ⟨gj, hgj⟩⟩ := ih h
      exact ⟨i + 1, j + 1, by omega, ⟨gi, by simpa using hgi⟩, ⟨gj, by simpa using hgj⟩⟩

/-- Active indices of a cons. -/
theorem activeIndices_cons (og : Option PackGroup) (rest : List (Option PackGroup)) :
    activeIndices (og :: rest) = optIndices og ++ activeIndices rest := by
  simp [activeIndices]

/-- Active indices of an append. -/
theorem activeIndices_append (l₁ l₂ : List (Option PackGroup)) :
    activeIndices (l₁ ++ l₂) = activeIndices l₁ ++ activeIndices l₂ := by
  simp [activeIndices]

/-- Permutation shuffle used when extracting a slot. -/
theorem perm_append_left_comm (a b c : List Nat) : (a ++ (b ++ c)).Perm (b ++ (a ++ c)) := by
  rw [← List.append_assoc, ← List.append_assoc]
  exact List.perm_append_comm.append_right c

/-- Extracting one slot: the active indices split into the slot's indices
and the rest. -/
theorem activeIndices_set (l : List (Option PackGroup)) :
    ∀ i : Nat, i < l.length →
      (activeIndices l).Perm (optIndices (l.getD i none) ++ activeIndices (l.set i none)) := by
  induction l with
  | nil => intro i hi; simp at hi
  | cons og rest ih =>
    intro i hi
    cases i with
    | zero =>
      rw [List.set_cons_zero, activeIndices_cons, activeIndices_cons]
      simp [optIndices]
    | succ i =>
      have hi2 : i < rest.length := by simpa using hi
      rw [List.set_cons_succ, activeIndices_cons, activeIndices_cons]
      have step := (ih i hi2).append_left (optIndices og)
      refine step.trans ?_
      have : (rest.getD i none) = ((og :: rest).getD (i + 1) none) := rfl
      rw [← this]
      exact perm_append_left_comm _ _ _

/-- Active indices are the indices of the surviving groups. -/
theorem activeIndices_eq_flat (l : List (Option PackGroup)) :
    activeIndices l = (l.filterMap id).flatMap PackGroup.indices := by
  induction l with
  | nil => rfl
  | cons og rest ih =>
    cases og with
    | none => simpa [activeIndices_cons, optIndices] using ih
    | some g => simp [activeIndices_cons, optIndices, ih]

/-- Active indices of the all-active initial state. -/
theorem activeIndices_map_some (l : List PackGroup) :
    activeIndices (l.map some) = l.flatMap PackGroup.indices := by
  induction l with
  | nil => rfl
  | cons g rest ih => simp [activeIndices_cons, optIndices, ih]

/-- The all-active initial state has one active group per item. -/
theorem activeCount_map_some (l : List PackGroup) : activeCount (l.map some) = l.length := by
  induction l with
  | nil => rfl
  | cons g rest ih => simpa [activeCount_cons_some] using ih

/-- One merge keeps the multiset of active indices unchanged. -/
theorem activeIndices_merge (groups : List (Option PackGroup)) (a b : Nat)
    (gA gB : PackGroup) (hab : a ≠ b)
    (ha : groups.getD a none = some gA) (hb : groups.getD b none = some gB)
    (newG : PackGroup) (hnew : newG.indices = gA.indices ++ gB.indices) :
    (activeIndices (((groups.set a none).set b none) ++ [some newG])).Perm
      (activeIndices groups) := by
  have hla : a < groups.length := getD_some_lt _ _ _ ha
  have hb2 : (groups.set a none).getD b none = some gB := by
    rw [getD_set_ne _ _ _ hab]
    exact hb
  have hlb : b < (groups.set a none).length := getD_some_lt _ _ _ hb2
  have h1 : (activeIndices groups).Perm
      (gA.indices ++ activeIndices (groups.set a none)) := by
    have := activeIndices_set groups a hla
    rw [ha] at this
    exact this
  have h2 : (activeIndices (groups.set a none)).Perm
      (gB.indices ++ activeIndices ((groups.set a none).set b none)) := by
    have := activeIndices_set (groups.set a none) b hlb
    rw [hb2] at this
    exact this
  have h3 : activeIndices (((groups.set a none).set b none) ++ [some newG]) =
      activeIndices ((groups.set a none).set b none) ++ newG.indices := by
    rw [activeIndices_append]
    simp [activeIndices, optIndices]
  rw [h3, hnew]
  refine List.Perm.symm (h1.trans ?_)
  refine (h2.append_left gA.indices).trans ?_
  rw [← List.append_assoc]
  exact List.perm_append_comm

/-- Writing a slot then reading it gives the written value. -/
theorem getD_set_self (l : List (Option PackGroup)) (i : Nat) (h : i < l.length)
    (v : Option PackGroup) : (l.set i v).getD i none = v := by
  rw [List.getD_eq_getElem?_getD, List.getElem?_set_self h]
  rfl

/-- Initial candidates pair two distinct groups, lower index first. -/
theorem initialCandidates_ids (gs : List (Option PackGroup)) :
    ∀ c ∈ initialCandidates gs, c.group_a_id ≠ c.group_b_id := by
  intro c hc
  unfold initialCandidates at hc
  obtain ⟨i, hi, hc⟩ := List.mem_flatMap.mp hc
  obtain ⟨j, hj, hc⟩ := List.mem_filterMap.mp hc
  by_cases hij : i < j
  · rw [if_pos hij] at hc
    cases hgi : gs.getD i none with
    | none => rw [hgi] at hc; simp at hc
    | some a =>
      cases hgj : gs.getD j none with
      | none => rw [hgi, hgj] at hc; simp at hc
      | some b =>
        rw [hgi, hgj] at hc
        simp only [Option.some.injEq] at hc
        rw [← hc]
        show i ≠ j
        omega
  · rw [if_neg hij] at hc
    exact Option.noConfusion hc

/-- The initial heap covers every pair of active groups. -/
theorem initialCandidates_covered (gs : List (Option PackGroup)) :
    Covered gs (initialCandidates gs) := by
  intro i j gi gj hij hgi hgj
  rcases Nat.lt_or_ge i j with hlt | hge
  · refine ⟨⟨calculate_merge_loss gi gj, i, j⟩, ?_, Or.inl ⟨rfl, rfl⟩⟩
    unfold initialCandidates
    refine List.mem_flatMap.mpr ⟨i, List.mem_range.mpr (getD_some_lt _ _ _ hgi), ?_⟩
    refine List.mem_filterMap.mpr ⟨j, List.mem_range.mpr (getD_some_lt _ _ _ hgj), ?_⟩
    rw [if_pos hlt, hgi, hgj]
  · have hlt : j < i := by omega
    refine ⟨⟨calculate_merge_loss gj gi, j, i⟩, ?_, Or.inr ⟨rfl, rfl⟩⟩
    unfold initialCandidates
    refine List.mem_flatMap.mpr ⟨j, List.mem_range.mpr (getD_some_lt _ _ _ hgj), ?_⟩
    refine List.mem_filterMap.mpr ⟨i, List.mem_range.mpr (getD_some_lt _ _ _ hgi), ?_⟩
    rw [if_pos hlt, hgj, hgi]

/-- Bound on the total length of a flatMap. -/
theorem flatMap_length_le {α β : Type} (l : List α) (f : α → List β) (m : Nat)
    (h : ∀ x ∈ l, (f x).length ≤ m) : (l.flatMap f).length ≤ l.length * m := by
  induction l with
  | nil => simp
  | cons x xs ih =>
    rw [List.flatMap_cons, List.length_append, List.length_cons, Nat.succ_mul]
    have h1 := h x (List.mem_cons_self _ _)
    have h2 := ih fun y hy => h y (List.mem_cons_of_mem _ hy)
    omega

/-- The initial heap holds at most a candidate per ordered pair. -/
theorem initialCandidates_length (gs : List (Option PackGroup)) :
    (initialCandidates gs).length ≤ gs.length * gs.length := by
  unfold initialCandidates
  refine le_trans (flatMap_length_le _ _ gs.length fun i _ =>
    le_trans (List.length_filterMap_le _ _) (le_of_eq (List.length_range _)))
    (le_of_eq (by rw [List.length_range]))

/-- The indices of the initial groups enumerate the input. -/
theorem initialGroups_flat (items : List PackItem) :
    (initialGroups items).flatMap PackGroup.indices = List.range items.length := by
  unfold initialGroups
  rw [List.flatMap_map]
  have : ∀ l : List (Nat × PackItem),
      (l.flatMap fun p => (⟨[p.1], p.2.size, p.2.stability⟩ : PackGroup).indices) =
        l.map Prod.fst := by
    intro l
    induction l with
    | nil => rfl
    | cons x xs ih => simp [ih]
  rw [this, List.enum_map_fst]

/-- One initial group per input item. -/
theorem initialGroups_length (items : List PackItem) :
    (initialGroups items).length = items.length := by
  simp [initialGroups]

/-- Every initial group holds exactly its item's index. -/
theorem initialGroups_indices (items : List PackItem) :
    ∀ g ∈ initialGroups items, ∃ i, g.indices = [i] := by
  intro g hg
  obtain ⟨p, _, rfl⟩ := List.mem_map.mp hg
  exact ⟨p.1, rfl⟩

/-- The merge loop preserves the partition of input indices and the
nonemptiness of every surviving group, for any fuel and any active count. -/
theorem packLoop_partition (k n : Nat) :
    ∀ (fuel : Nat) (groups : List (Option PackGroup)) (active : Nat)
      (heap : List MergeCandidate),
      (∀ c ∈ heap, c.group_a_id ≠ c.group_b_id) →
      (activeIndices groups).Perm (List.range n) →
      (∀ g, some g ∈ groups → g.indices ≠ []) →
      (activeIndices (packLoop k fuel groups active heap)).Perm (List.range n) ∧
        ∀ g, some g ∈ packLoop k fuel groups active heap → g.indices ≠ [] := by
  intro fuel
  induction fuel with
  | zero =>
    intro groups active heap _ hperm hne
    exact ⟨hperm, hne⟩
  | succ fuel ih =>
    intro groups active heap hids hperm hne
    simp only [packLoop]
    by_cases hk : active ≤ k
    · rw [if_pos hk]
      exact ⟨hperm, hne⟩
    · rw [if_neg hk]
      cases hpop : popMin heap with
      | none => exact ⟨hperm, hne⟩
      | some pr =>
        obtain ⟨mc, rest⟩ := pr
        dsimp only
        have hheap : heap.Perm (mc :: rest) := popMin_perm heap mc rest hpop
        have hrest : ∀ c ∈ rest, c.group_a_id ≠ c.group_b_id := fun c hc =>
          hids c (hheap.symm.subset (List.mem_cons_of_mem _ hc))
        cases ha : groups.getD mc.group_a_id none with
        | none => exact ih groups active rest hrest hperm hne
        | some gA =>
          cases hb : groups.getD mc.group_b_id none with
          | none => exact ih groups active rest hrest hperm hne
          | some gB =>
            have habne : mc.group_a_id ≠ mc.group_b_id :=
              hids mc (hheap.symm.subset (List.mem_cons_self _ _))
            dsimp only
            apply ih
            · intro c hc
              rcases List.mem_append.mp hc with hc | hc
              · exact hrest c hc
              · have := newCandidates_mem _ _ _ _ c hc
                rw [this.1]
                exact fun hh => this.2 hh.symm
            · exact (activeIndices_merge groups mc.group_a_id mc.group_b_id gA gB habne
                ha hb _ rfl).trans hperm
            · intro g hg
              rcases List.mem_append.mp hg with hg | hg
              · rcases List.mem_or_eq_of_mem_set hg with hg | hg
                · rcases List.mem_or_eq_of_mem_set hg with hg | hg
                  · exact hne g hg
                  · exact Option.noConfusion hg
                · exact Option.noConfusion hg
              · rw [List.mem_singleton] at hg
                injection hg with hg
                rw [hg]
                intro hcat
                exact hne gA (getD_some_mem _ _ _ ha) (List.append_eq_nil.mp hcat).1

/-- With a complete candidate heap, pairwise-distinct candidate endpoints
and enough fuel, the merge loop always finds a valid merge while above the
bound: it ends with exactly `max_groups` active groups (and leaves the state
untouched when already within the bound). -/
theorem packLoop_count (k : Nat) (hk : 1 ≤ k) :
    ∀ (fuel : Nat) (groups : List (Option PackGroup)) (heap : List MergeCandidate),
      (∀ c ∈ heap, c.group_a_id ≠ c.group_b_id) →
      Covered groups heap →
      heap.length + activeCount groups * activeCount groups ≤ fuel →
      activeCount (packLoop k fuel groups (activeCount groups) heap) =
        if activeCount groups ≤ k then activeCount groups else k := by
  intro fuel
  induction fuel with
  | zero =>
    intro groups heap _ _ hfuel
    have hA : activeCount groups = 0 := by
      by_contra hA
      have h1 : 1 ≤ activeCount groups := Nat.one_le_iff_ne_zero.mpr hA
      nlinarith
    rw [hA, if_pos (Nat.zero_le k)]
    simp only [packLoop]
    exact hA
  | succ fuel ih =>
    intro groups heap hids hcov hfuel
    simp only [packLoop]
    by_cases hka : activeCount groups ≤ k
    · rw [if_pos hka, if_pos hka]
    · rw [if_neg hka, if_neg hka]
      have hA2 : 2 ≤ activeCount groups := by omega
      obtain ⟨i0, j0, hij0, ⟨gi0, hgi0⟩, ⟨gj0, hgj0⟩⟩ := activeCount_two groups hA2
      obtain ⟨c0, hc0, _⟩ := hcov i0 j0 gi0 gj0 hij0 hgi0 hgj0
      have hne : heap ≠ [] := by
        intro h
        rw [h] at hc0
        exact List.not_mem_nil c0 hc0
      obtain ⟨mc, rest, hpop⟩ := popMin_isSome heap hne
      rw [hpop]
      dsimp only
      have hheap : heap.Perm (mc :: rest) := popMin_perm heap mc rest hpop
      have hlen : heap.length = rest.length + 1 := by simpa using hheap.length_eq
      have hrest_ids : ∀ c ∈ rest, c.group_a_id ≠ c.group_b_id := fun c hc =>
        hids c (hheap.symm.subset (List.mem_cons_of_mem _ hc))
      cases ha : groups.getD mc.group_a_id none with
      | none =>
        have hcov2 : Covered groups rest := by
          intro i j gi gj hij hgi hgj
          obtain ⟨c, hc, hor⟩ := hcov i j gi gj hij hgi hgj
          have hcmc : c ≠ mc := by
            intro hcmc
            subst hcmc
            rcases hor with ⟨h1, _⟩ | ⟨h1, _⟩
            · rw [← h1, ha] at hgi
              exact Option.noConfusion hgi
            · rw [← h1, ha] at hgj
              exact Option.noConfusion hgj
          have hcrest : c ∈ rest := by
            rcases List.mem_cons.mp (hheap.subset hc) with h | h
            · exact absurd h hcmc
            · exact h
          exact ⟨c, hcrest, hor⟩
        have hfuel2 : rest.length + activeCount groups * activeCount groups ≤ fuel := by
          omega
        have hres := ih groups rest hrest_ids hcov2 hfuel2
        rw [if_neg hka] at hres
        exact hres
      | some gA =>
        cases hb : groups.getD mc.group_b_id none with
        | none =>
          have hcov2 : Covered groups rest := by
            intro i j gi gj hij hgi hgj
            obtain ⟨c, hc, hor⟩ := hcov i j gi gj hij hgi hgj
            have hcmc : c ≠ mc := by
              intro hcmc
              subst hcmc
              rcases hor with ⟨_, h2⟩ | ⟨_, h2⟩
              · rw [← h2, hb] at hgj
                exact Option.noConfusion hgj
              · rw [← h2, hb] at hgi
                exact Option.noConfusion hgi
            have hcrest : c ∈ rest := by
              rcases List.mem_cons.mp (hheap.subset hc) with h | h
              · exact absurd h hcmc
              · exact h
            exact ⟨c, hcrest, hor⟩
          have hfuel2 : rest.length + activeCount groups * activeCount groups ≤ fuel := by
            omega
          have hres := ih groups rest hrest_ids hcov2 hfuel2
          rw [if_neg hka] at hres
          exact hres
        | some gB =>
          dsimp only
          have habne : mc.group_a_id ≠ mc.group_b_id :=
            hids mc (hheap.symm.subset (List.mem_cons_self _ _))
          have hla : mc.group_a_id < groups.length := getD_some_lt _ _ _ ha
          have hlb : mc.group_b_id < groups.length := getD_some_lt _ _ _ hb
          set g1 := (groups.set mc.group_a_id none).set mc.group_b_id none with hg1
          set newG : PackGroup :=
            ⟨gA.indices ++ gB.indices, gA.size + gB.size, gA.stability * gB.stability⟩
            with hnewG
          have hgb2 : (groups.set mc.group_a_id none).getD mc.group_b_id none = some gB := by
            rw [getD_set_ne _ _ _ habne]
            exact hb
          have hc1 : activeCount groups = activeCount (groups.set mc.group_a_id none) + 1 :=
            activeCount_set_none _ _ _ ha
          have hc2 : activeCount (groups.set mc.group_a_id none) = activeCount g1 + 1 :=
            activeCount_set_none _ _ _ hgb2
          have hc3 : activeCount (g1 ++ [some newG]) = activeCount g1 + 1 :=
            activeCount_append_some _ _
          have hAeq : activeCount groups - 1 = activeCount (g1 ++ [some newG]) := by omega
          rw [hAeq]
          have hids2 : ∀ c ∈ rest ++ newCandidates newG g1.length 0 (g1 ++ [some newG]),
              c.group_a_id ≠ c.group_b_id := by
            intro c hc
            rcases List.mem_append.mp hc with hc | hc
            · exact hrest_ids c hc
            · have := newCandidates_mem _ _ _ _ c hc
              rw [this.1]
              exact fun hh => this.2 hh.symm
          have hcov2 : Covered (g1 ++ [some newG])
              (rest ++ newCandidates newG g1.length 0 (g1 ++ [some newG])) := by
            intro i j gi gj hij hgi hgj
            by_cases hinew : i = g1.length
            · have hjne : (0 : Nat) + j ≠ g1.length := by omega
              obtain ⟨c, hc, h1, h2⟩ :=
                newCandidates_covered newG g1.length (g1 ++ [some newG]) 0 j gj hgj hjne
              exact ⟨c, List.mem_append_right _ hc,
                Or.inl ⟨h1.trans hinew.symm, h2.trans (Nat.zero_add j)⟩⟩
            · by_cases hjnew : j = g1.length
              · have hine : (0 : Nat) + i ≠ g1.length := by omega
                obtain ⟨c, hc, h1, h2⟩ :=
                  newCandidates_covered newG g1.length (g1 ++ [some newG]) 0 i gi hgi hine
                exact ⟨c, List.mem_append_right _ hc,
                  Or.inr ⟨h1.trans hjnew.symm, h2.trans (Nat.zero_add i)⟩⟩
              · have hilt : i < g1.length := by
                  have h := getD_some_lt _ _ _ hgi
                  rw [List.length_append, List.length_singleton] at h
                  omega
                have hjlt : j < g1.length := by
                  have h := getD_some_lt _ _ _ hgj
                  rw [List.length_append, List.length_singleton] at h
                  omega
                have hgi2 : g1.getD i none = some gi := by
                  rw [List.getD_append _ _ _ _ hilt] at hgi
                  exact hgi
                have hgj2 : g1.getD j none = some gj := by
                  rw [List.getD_append _ _ _ _ hjlt] at hgj
                  exact hgj
                have hg1len : g1.length = groups.length := by
                  rw [hg1, List.length_set, List.length_set]
                have hia : i ≠ mc.group_a_id := by
                  intro hia
                  rw [hg1, hia, getD_set_ne _ _ _ (Ne.symm habne),
                    getD_set_self _ _ hla] at hgi2
                  exact Option.noConfusion hgi2
                have hib : i ≠ mc.group_b_id := by
                  intro hib
                  rw [hg1, hib, getD_set_self _ _ (by rw [List.length_set]; exact hlb)] at hgi2
                  exact Option.noConfusion hgi2
                have hja : j ≠ mc.group_a_id := by
                  intro hja
                  rw [hg1, hja, getD_set_ne _ _ _ (Ne.symm habne),
                    getD_set_self _ _ hla] at hgj2
                  exact Option.noConfusion hgj2
                have hjb : j ≠ mc.group_b_id := by
                  intro hjb
                  rw [hg1, hjb, getD_set_self _ _ (by rw [List.length_set]; exact hlb)] at hgj2
                  exact Option.noConfusion hgj2
                have hgi3 : groups.getD i none = some gi := by
                  rw [hg1, getD_set_ne _ _ _ (Ne.symm hib),
                    getD_set_ne _ _ _ (Ne.symm hia)] at hgi2
                  exact hgi2
                have hgj3 : groups.getD j none = some gj := by
                  rw [hg1, getD_set_ne _ _ _ (Ne.symm hjb),
                    getD_set_ne _ _ _ (Ne.symm hja)] at hgj2
                  exact hgj2
                obtain ⟨c, hc, hor⟩ := hcov i j gi gj hij hgi3 hgj3
                have hcmc : c ≠ mc := by
                  intro hcmc
                  subst hcmc
                  rcases hor with ⟨h1, _⟩ | ⟨h1, _⟩
                  · exact hia h1.symm
                  · exact hja h1.symm
                have hcrest : c ∈ rest := by
                  rcases List.mem_cons.mp (hheap.subset hc) with h | h
                  · exact absurd h hcmc
                  · exact h
                exact ⟨c, List.mem_append_left _ hcrest, hor⟩
          have hpush :
              (newCandidates newG g1.length 0 (g1 ++ [some newG])).length ≤
                activeCount g1 + 1 := by
            have h := newCandidates_length newG g1.length (g1 ++ [some newG]) 0
            rw [hc3] at h
            exact h
          have hfuel2 :
              (rest ++ newCandidates newG g1.length 0 (g1 ++ [some newG])).length +
                activeCount (g1 ++ [some newG]) * activeCount (g1 ++ [some newG]) ≤ fuel := by
            rw [List.length_append, hc3]
            have hAg : activeCount groups = activeCount g1 + 2 := by omega
            rw [hAg] at hfuel
            have hsq : (activeCount g1 + 1) * (activeCount g1 + 1) + (activeCount g1 + 1) ≤
                (activeCount g1 + 2) * (activeCount g1 + 2) := by nlinarith
            set s1 := (activeCount g1 + 1) * (activeCount g1 + 1) with hs1
            set s2 := (activeCount g1 + 2) * (activeCount g1 + 2) with hs2
            omega
          have hres := ih (g1 ++ [some newG])
            (rest ++ newCandidates newG g1.length 0 (g1 ++ [some newG])) hids2 hcov2 hfuel2
          by_cases hfin : activeCount (g1 ++ [some newG]) ≤ k
          · rw [if_pos hfin] at hres
            rw [hres]
            omega
          · rw [if_neg hfin] at hres
            exact hres

/-! ## Claims C1, C4, C10: the packing algorithm -/

/-- C1 counterexample: with one item and `max_groups = 0` the packer
returns no groups at all (an explicit early return in the source), so input
index 0 appears in no output group, refuting the claim for every
`max_groups` value. -/
theorem claim_C1_counterexample :
    ¬ ((calculate_packing [⟨1, 1⟩] 0).flatMap PackGroup.indices).Perm (List.range 1) := by
  decide

/-- C1 amended: for every input list and every `max_groups ≥ 1` (for
`max_groups = 0` the code intentionally returns no groups), the output of
`calculate_packing` partitions the input: every input index appears in
exactly one output group, and no output group has an empty index list. -/
theorem claim_C1_packing_partition (items : List PackItem) (k : Nat) (hk : 1 ≤ k) :
    ((calculate_packing items k).flatMap PackGroup.indices).Perm
      (List.range items.length) ∧
    ∀ g ∈ calculate_packing items k, g.indices ≠ [] := by
  unfold calculate_packing
  by_cases hempty : items.isEmpty
  · rw [if_pos (Or.inl hempty)]
    obtain rfl := List.isEmpty_iff.mp hempty
    exact ⟨by simp, fun g hg => by simp at hg⟩
  · have hguard : ¬(items.isEmpty ∨ k = 0) := by
      rintro (h | h)
      · exact hempty h
      · omega
    rw [if_neg hguard]
    dsimp only
    by_cases hnk : items.length ≤ k
    · rw [if_pos hnk]
      constructor
      · have hperm := List.perm_insertionSort
          (fun a b : PackGroup => b.stability ≤ a.stability) (initialGroups items)
        have h2 := List.Perm.flatMap_right PackGroup.indices hperm
        rw [initialGroups_flat] at h2
        exact h2
      · intro g hg
        rw [sort_by_stability_desc, List.mem_insertionSort] at hg
        obtain ⟨i, hi⟩ := initialGroups_indices items g hg
        rw [hi]
        simp
    · rw [if_neg hnk]
      have hperm0 : (activeIndices ((initialGroups items).map some)).Perm
          (List.range items.length) := by
        rw [activeIndices_map_some, initialGroups_flat]
      have hne0 : ∀ g, some g ∈ (initialGroups items).map some → g.indices ≠ [] := by
        intro g hg
        rw [List.mem_map] at hg
        obtain ⟨g2, hg2, heq⟩ := hg
        injection heq with heq
        subst heq
        obtain ⟨i, hi⟩ := initialGroups_indices items g2 hg2
        rw [hi]
        simp
      have hmain := packLoop_partition k items.length (packFuel items.length)
        ((initialGroups items).map some) items.length
        (initialCandidates ((initialGroups items).map some))
        (initialCandidates_ids _) hperm0 hne0
      constructor
      · have hperm := List.perm_insertionSort
          (fun a b : PackGroup => b.stability ≤ a.stability)
          ((packLoop k (packFuel items.length) ((initialGroups items).map some)
            items.length (initialCandidates ((initialGroups items).map some))).filterMap id)
        have h2 := List.Perm.flatMap_right PackGroup.indices hperm
        rw [← activeIndices_eq_flat] at h2
        exact h2.trans hmain.1
      · intro g hg
        rw [sort_by_stability_desc, List.mem_insertionSort, List.mem_filterMap] at hg
        obtain ⟨o, ho, hid⟩ := hg
        simp only [id_eq] at hid
        subst hid
        exact hmain.2 g ho

/-- Witness for the amended C1 at a concrete two-item input packed into a
single group. -/
theorem claim_C1_packing_partition_witness :
    1 ≤ 1 ∧
    (((calculate_packing [⟨5, mkRat 1 2⟩, ⟨7, mkRat 1 3⟩] 1).flatMap
        PackGroup.indices).Perm
      (List.range ([⟨5, mkRat 1 2⟩, ⟨7, mkRat 1 3⟩] : List PackItem).length) ∧
      ∀ g ∈ calculate_packing [⟨5, mkRat 1 2⟩, ⟨7, mkRat 1 3⟩] 1, g.indices ≠ []) :=
  ⟨by decide, claim_C1_packing_partition [⟨5, mkRat 1 2⟩, ⟨7, mkRat 1 3⟩] 1 (by decide)⟩

/-- C4: with a nonempty input of N items and `max_groups ≥ N`,
`calculate_packing` returns exactly N groups, each holding exactly one
input index, every input index appearing once, sorted by stability
descending. -/
theorem claim_C4_packing_identity (items : List PackItem) (k : Nat)
    (hne : items ≠ []) (hk : items.length ≤ k) :
    (calculate_packing items k).length = items.length ∧
    (∀ g ∈ calculate_packing items k, ∃ i, g.indices = [i]) ∧
    ((calculate_packing items k).flatMap PackGroup.indices).Perm
      (List.range items.length) ∧
    List.Sorted (fun a b => b.stability ≤ a.stability) (calculate_packing items k) := by
  have hpos : 0 < items.length := List.length_pos.mpr hne
  have hguard : ¬(items.isEmpty ∨ k = 0) := by
    rintro (h | h)
    · exact hne (List.isEmpty_iff.mp h)
    · omega
  unfold calculate_packing
  rw [if_neg hguard]
  dsimp only
  rw [if_pos hk]
  refine ⟨?_, ?_, ?_, ?_⟩
  · rw [sort_by_stability_desc, (List.perm_insertionSort _ _).length_eq, initialGroups_length]
  · intro g hg
    rw [sort_by_stability_desc, List.mem_insertionSort] at hg
    exact initialGroups_indices items g hg
  · have hperm := List.perm_insertionSort
      (fun a b : PackGroup => b.stability ≤ a.stability) (initialGroups items)
    have h2 := List.Perm.flatMap_right PackGroup.indices hperm
    rw [initialGroups_flat] at h2
    exact h2
  · exact List.sorted_insertionSort _ _

/-- Witness for C4 at two items and a generous bound. -/
theorem claim_C4_packing_identity_witness :
    ([⟨100, mkRat 9 10⟩, ⟨200, mkRat 8 10⟩] : List PackItem) ≠ [] ∧
    ([⟨100, mkRat 9 10⟩, ⟨200, mkRat 8 10⟩] : List PackItem).length ≤ 5 ∧
    ((calculate_packing [⟨100, mkRat 9 10⟩, ⟨200, mkRat 8 10⟩] 5).length =
      ([⟨100, mkRat 9 10⟩, ⟨200, mkRat 8 10⟩] : List PackItem).length ∧
    (∀ g ∈ calculate_packing [⟨100, mkRat 9 10⟩, ⟨200, mkRat 8 10⟩] 5, ∃ i, g.indices = [i]) ∧
    ((calculate_packing [⟨100, mkRat 9 10⟩, ⟨200, mkRat 8 10⟩] 5).flatMap
        PackGroup.indices).Perm
      (List.range ([⟨100, mkRat 9 10⟩, ⟨200, mkRat 8 10⟩] : List PackItem).length) ∧
    List.Sorted (fun a b => b.stability ≤ a.stability)
      (calculate_packing [⟨100, mkRat 9 10⟩, ⟨200, mkRat 8 10⟩] 5)) :=
  ⟨by decide, by decide,
    claim_C4_packing_identity [⟨100, mkRat 9 10⟩, ⟨200, mkRat 8 10⟩] 5 (by decide) (by decide)⟩

/-- C10: with `1 ≤ max_groups < N` the packer returns exactly `max_groups`
groups, not merely at most: the candidate heap always holds a merge between
two still-active groups until the bound is reached. -/
theorem claim_C10_packing_exact_count (items : List PackItem) (k : Nat)
    (h1 : 1 ≤ k) (h2 : k < items.length) :
    (calculate_packing items k).length = k := by
  have hguard : ¬(items.isEmpty ∨ k = 0) := by
    rintro (h | h)
    · rw [List.isEmpty_iff.mp h] at h2
      simp at h2
    · omega
  unfold calculate_packing
  rw [if_neg hguard]
  rw [if_neg (by omega : ¬ items.length ≤ k)]
  rw [sort_by_stability_desc, (List.perm_insertionSort _ _).length_eq]
  have hACnt : activeCount ((initialGroups items).map some) = items.length := by
    rw [activeCount_map_some, initialGroups_length]
  have hfuel : (initialCandidates ((initialGroups items).map some)).length +
      activeCount ((initialGroups items).map some) *
        activeCount ((initialGroups items).map some) ≤ packFuel items.length := by
    rw [hACnt]
    have hb := initialCandidates_length ((initialGroups items).map some)
    rw [List.length_map, initialGroups_length] at hb
    unfold packFuel
    set m := items.length * items.length with hm
    omega
  have hcount := packLoop_count k h1 (packFuel items.length)
    ((initialGroups items).map some)
    (initialCandidates ((initialGroups items).map some))
    (initialCandidates_ids _) (initialCandidates_covered _) hfuel
  rw [hACnt, if_neg (by omega : ¬ items.length ≤ k)] at hcount
  exact hcount

/-- Witness for C10 at three items packed into two groups. -/
theorem claim_C10_packing_exact_count_witness :
    1 ≤ 2 ∧ 2 < ([⟨1000, mkRat 99 100⟩, ⟨1000, mkRat 99 100⟩,
      ⟨1000, mkRat 3 10⟩] : List PackItem).length ∧
    (calculate_packing [⟨1000, mkRat 99 100⟩, ⟨1000, mkRat 99 100⟩,
      ⟨1000, mkRat 3 10⟩] 2).length = 2 :=
  ⟨by decide, by decide,
    claim_C10_packing_exact_count
      [⟨1000, mkRat 99 100⟩, ⟨1000, mkRat 99 100⟩, ⟨1000, mkRat 3 10⟩] 2
      (by decide) (by decide)⟩

end Chunkah
